import Mathlib

/-!
Verification development for the curious-js client library
(file src/curious.js). The JavaScript data model and operations are
shallowly embedded: JS values become the inductive type JVal, JS objects
become insertion-ordered association lists from string keys, and object
identity is modelled by a heap of entities addressed by natural-number
references. Each definition mirrors one function of the source file.
-/

/-! ## Part 1: definitions -/

/-- A JavaScript value, as far as the library manipulates them: null,
undefined, booleans, numbers (integers; NaN kept as a separate point),
strings, and arrays of entity references (relationship arrays). -/
inductive JVal : Type where
  | null : JVal
  | undef : JVal
  | bool : Bool → JVal
  | num : Int → JVal
  | nan : JVal
  | str : String → JVal
  | arr : List Nat → JVal
  deriving DecidableEq, Repr, Inhabited

/-- JS truthiness: null, undefined, false, 0, NaN and the empty string
are falsy, everything else the library handles is truthy. -/
def JVal.truthy : JVal → Bool
  | .null => false
  | .undef => false
  | .bool b => b
  | .num n => n != 0
  | .nan => false
  | .str s => s != ""
  | .arr _ => true

/-- JS property-key coercion (ToPropertyKey / String conversion) for the
values the library uses as object keys. -/
def JVal.keyStr : JVal → String
  | .null => "null"
  | .undef => "undefined"
  | .bool b => if b then "true" else "false"
  | .num n => toString n
  | .nan => "NaN"
  | .str s => s
  | .arr _ => ""

/-- A JS object: insertion-ordered association list of string keys. -/
abbrev JObj (α : Type) : Type := List (String × α)

/-- JS property read, obj[k]. -/
def getA {α : Type} : JObj α → String → Option α
  | [], _ => none
  | (k0, v0) :: rest, k => if k0 = k then some v0 else getA rest k

/-- JS property assignment, obj[k] = v: overwrite in place when the key
is present, append when it is new. -/
def setA {α : Type} : JObj α → String → α → JObj α
  | [], k, v => [(k, v)]
  | (k0, v0) :: rest, k, v =>
      if k0 = k then (k, v) :: rest else (k0, v0) :: setA rest k v

/-- The keys of a JS object, in order. -/
def keysOf {α : Type} (l : JObj α) : List String := l.map Prod.fst

/-! ### The camel-case naming utility (makeCamelCase) -/

/-- A snake/kebab separator character. -/
def isSep (c : Char) : Bool := c = '-' || c = '_'

/-- JS String.prototype.split on the regex class of separators:
"a--b".split gives ["a", "", "b"], "".split gives [""]. -/
def splitSep : List Char → List (List Char)
  | [] => [[]]
  | c :: rest =>
      match splitSep rest with
      | [] => [[]]
      | g :: gs => if isSep c then [] :: g :: gs else (c :: g) :: gs

/-- Lowercase a whole component, as component.toLowerCase(). -/
def lowerAll (cs : List Char) : List Char := cs.map Char.toLower

/-- Capitalize the first character, as charAt(0).toUpperCase() + slice(1). -/
def capFirst : List Char → List Char
  | [] => []
  | c :: rest => Char.toUpper c :: rest

/-- The per-component casing pass of makeCamelCase: every component is
lowercased, and every component except the first has its first character
re-capitalized. -/
def caseComponents : List (List Char) → List (List Char)
  | [] => []
  | first :: rest => lowerAll first :: rest.map (fun comp => capFirst (lowerAll comp))

/-- The leading separator run matched by the regex anchored at the start. -/
def leadOf (cs : List Char) : List Char := cs.takeWhile isSep

/-- The trailing separator run matched by the regex anchored at the end. -/
def trailOf (cs : List Char) : List Char := (cs.reverse.takeWhile isSep).reverse

/-- The substring strictly between the leading and trailing separator
runs, as input.substring(leading.length, length - trailing.length). -/
def bodyOf (cs : List Char) : List Char :=
  (cs.drop (leadOf cs).length).take (cs.length - (leadOf cs).length - (trailOf cs).length)

/-- The body of makeCamelCase on a (truthy) string: if the string is all
separators return it unchanged; otherwise preserve leading and trailing
separator runs, split the rest on separators, and camel-case the
components only when there is more than one. -/
def camelStr (s : String) : String :=
  if (leadOf s.toList).length = s.toList.length then
    s
  else
    String.mk (leadOf s.toList
      ++ (if 1 < (splitSep (bodyOf s.toList)).length
          then caseComponents (splitSep (bodyOf s.toList))
          else splitSep (bodyOf s.toList)).flatten
      ++ trailOf s.toList)

/-- makeCamelCase as it acts on JS values: any falsy input (null,
undefined, the empty string, ...) passes through unchanged; a truthy
string is camel-cased. (A truthy non-string input is not reached by the
library; it is left unchanged here.) -/
def makeCamelCase : JVal → JVal
  | .str s => if s ≠ "" then .str (camelStr s) else .str s
  | v => v

/-- makeCamelCase restricted to string keys, as used on field and
relationship names (the empty string is falsy and passes through). -/
def mcc (s : String) : String := if s = "" then s else camelStr s

/-- Apply the camel-case transform to a key when the camelCase flag is
set, as done throughout _parseObjects and parse. -/
def tfName (camelCase : Bool) (f : String) : String := if camelCase then mcc f else f

/-! ### The object materializer (_parseObjects and CuriousObject) -/

/-- An entity: a JS object holding JS values. -/
abbrev Props : Type := JObj JVal

/-- The heap of entities; a Nat is a JS object reference into it. -/
abbrev Heap : Type := List Props

/-- One stage of queryJSONResponse.data: field names, per-row value
arrays (none models an absent or non-array objects member), and urls. -/
structure QueryData : Type where
  fields : List String
  objects : Option (List (List JVal))
  urls : List JVal
  deriving DecidableEq, Repr, Inhabited

/-- One stage of queryJSONResponse.results: model name, join_index,
tree, and the join-edge list of (targetId, sourceId) pairs. -/
structure StageResult : Type where
  model : String
  join_index : Int
  tree : JVal
  objects : List (JVal × JVal)
  deriving DecidableEq, Repr, Inhabited

/-- The response envelope handed to parse: results plus data (none
models an absent or non-array data member). -/
structure Response : Type where
  results : List StageResult
  data : Option (List QueryData)
  deriving DecidableEq, Repr, Inhabited

/-- The zip loop of _parseObjects: objectData[fieldName] =
objectDataArray[fieldIndex], with undefined for an index past the end of
the row. -/
def buildObjectData : List String → List JVal → Props → Props
  | [], _, acc => acc
  | f :: fs, vs, acc => buildObjectData fs vs.tail (setA acc f (vs.headD .undef))

/-- The data-copy loop of the CuriousObject constructor: each key of
objectData is assigned onto the new object, camel-cased when requested. -/
def cuCopy (camelCase : Bool) : Props → Props → Props
  | [], obj => obj
  | (k, v) :: rest, obj => cuCopy camelCase rest (setA obj (tfName camelCase k) v)

/-- The CuriousObject constructor: __url and __model start out null,
then every objectData key is copied over. -/
def CuriousObject (objectData : Props) (camelCase : Bool) : Props :=
  cuCopy camelCase objectData [("__url", JVal.null), ("__model", JVal.null)]

/-- The re-assignment loop run after a custom constructor: every
declared field is assigned from objectData onto the instance, with the
key camel-cased when requested, overwriting whatever is there. -/
def reassignFields (camelCase : Bool) (objectData : Props) : List String → Props → Props
  | [], obj => obj
  | f :: fs, obj =>
      reassignFields camelCase objectData fs
        (setA obj (tfName camelCase f) ((getA objectData f).getD .undef))

/-- Materialize one row: build the field map, construct the instance
(custom constructor plus re-assignment, or CuriousObject), then stamp
the magic __url and __model fields. -/
def buildOne (fields : List String) (url : JVal) (model : String)
    (ctor : Option (Props → Props)) (camelCase : Bool) (row : List JVal) : Props :=
  let objectData := buildObjectData fields row []
  let obj :=
    match ctor with
    | some f => reassignFields camelCase objectData fields (f objectData)
    | none => CuriousObject objectData camelCase
  setA (setA obj "__url" url) "__model" (.str model)

/-- The row loop of _parseObjects, carrying the row index used to read
the parallel urls array. -/
def parseObjectsAux (fields : List String) (urls : List JVal) (model : String)
    (ctor : Option (Props → Props)) (camelCase : Bool) : List (List JVal) → Nat → List Props
  | [], _ => []
  | row :: rest, k =>
      buildOne fields (urls.getD k .undef) model ctor camelCase row
        :: parseObjectsAux fields urls model ctor camelCase rest (k + 1)

/-- _parseObjects: materialize every row of one stage; if the objects
member is absent or not an array, return the empty list. -/
def _parseObjects (queryData : QueryData) (model : String)
    (ctor : Option (Props → Props)) (camelCase : Bool) : List Props :=
  match queryData.objects with
  | some rows => parseObjectsAux queryData.fields queryData.urls model ctor camelCase rows 0
  | none => []

/-! ### The result graph builder (parse) -/

/-- The map key used for an entity: String(object.id). -/
def idKeyOf (o : Props) : String := ((getA o "id").getD .undef).keyStr

/-- customConstructors[queryIndex] if customConstructors is an array,
else null. -/
def ctorAt (ctors : Option (List (Option (Props → Props)))) (i : Nat) :
    Option (Props → Props) :=
  match ctors with
  | some cs => cs.getD i none
  | none => none

/-- existingObjects[queryIndex] if existingObjects is an array and the
entry is truthy, else nothing. -/
def exAt (ex : Option (List (Option (JObj Nat)))) (i : Nat) : Option (JObj Nat) :=
  match ex with
  | some l => l.getD i none
  | none => none

/-- Look an id key up in a per-stage existing-entity map. -/
def exRefFor (exm : Option (JObj Nat)) (k : String) : Option Nat :=
  match exm with
  | some m => getA m k
  | none => none

/-- The objectsByID loop of parse: each materialized entity (heap
reference r, counting up) is stored under its id key, unless the
existing-entity map has that key, in which case the existing reference
is stored instead. -/
def mkStageMapAux (exm : Option (JObj Nat)) : List Props → Nat → JObj Nat → JObj Nat
  | [], _, acc => acc
  | o :: os, r, acc =>
      mkStageMapAux exm os (r + 1)
        (setA acc (idKeyOf o) ((exRefFor exm (idKeyOf o)).getD r))

/-- Build one stage's objectsByID map; base is the heap address of the
stage's first materialized entity. -/
def mkStageMap (objs : List Props) (exm : Option (JObj Nat)) (base : Nat) : JObj Nat :=
  mkStageMapAux exm objs base []

/-- The materialize pass of parse: per stage, materialize the rows into
fresh heap entities, build objectsByID (with existing-entity
substitution), push a null tree slot. -/
def materializeAll (results : List StageResult)
    (ctors : Option (List (Option (Props → Props))))
    (ex : Option (List (Option (JObj Nat)))) (camelCase : Bool) :
    List QueryData → Nat → Heap → List (JObj Nat) × List JVal × Heap
  | [], _, h => ([], [], h)
  | qd :: rest, qi, h =>
      let objs := _parseObjects qd (results.getD qi default).model (ctorAt ctors qi) camelCase
      let m := mkStageMap objs (exAt ex qi) h.length
      let res := materializeAll results ctors ex camelCase rest (qi + 1) (h ++ objs)
      (m :: res.1, JVal.null :: res.2.1, res.2.2)

/-- Read an entity from the heap (an out-of-range reference yields the
empty object; such a read is never reached on in-range references). -/
def getE (h : Heap) (r : Nat) : Props := h.getD r []

/-- Write an entity back to the heap. -/
def setE (h : Heap) (r : Nat) (e : Props) : Heap := h.set r e

/-- entity[k].push(v) for a relationship array property. -/
def pushProp (h : Heap) (r : Nat) (k : String) (v : Nat) : Heap :=
  match getA (getE h r) k with
  | some (.arr xs) => setE h r (setA (getE h r) k (.arr (xs ++ [v])))
  | _ => h

/-- relationships[i], camel-cased when requested; an out-of-range index
reads undefined, which coerces to the key "undefined". -/
def relNameAt (relationships : List String) (camelCase : Bool) (i : Nat) : String :=
  match relationships.get? i with
  | some s => if camelCase then mcc s else s
  | none => "undefined"

/-- relationships[joinIndex] for the raw (possibly negative) join_index. -/
def relNameAtI (relationships : List String) (camelCase : Bool) (i : Int) : String :=
  if 0 ≤ i then relNameAt relationships camelCase i.toNat else "undefined"

/-- combinedObjects[joinIndex] for the raw (possibly negative)
join_index: undefined (none) when out of range. -/
def mapAtI (maps : List (JObj Nat)) (i : Int) : Option (JObj Nat) :=
  if 0 ≤ i then maps.get? i.toNat else none

/-- The initialization loop: store a fresh empty relationship array
under the given name on every entity of the map. -/
def initRel (name : String) : JObj Nat → Heap → Heap
  | [], h => h
  | (_, r) :: rest, h => initRel name rest (setE h r (setA (getE h r) name (.arr [])))

/-- The edge loop: for each (targetId, sourceId) pair, skip it when
sourceId is falsy; otherwise resolve both endpoints and, only when both
resolve, push the target onto the source's forward array and the source
onto the target's reverse array. -/
def applyEdges (dst src : JObj Nat) (fwd rev : String) : List (JVal × JVal) → Heap → Heap
  | [], h => h
  | (t, sv) :: es, h =>
      applyEdges dst src fwd rev es
        (if sv.truthy then
          match getA dst t.keyStr, getA src sv.keyStr with
          | some rT, some rS => pushProp (pushProp h rS fwd rT) rT rev rS
          | _, _ => h
        else h)

/-- One iteration of the link loop of parse for stage qi: resolve the
relationship names and the two stage maps; when both maps exist,
initialize both relationship arrays on every entity of both stages and
then apply the join edges; finally store this stage's tree. -/
def linkStage (relationships : List String) (camelCase : Bool) (maps : List (JObj Nat))
    (qi : Nat) (qr : StageResult) (trees : List JVal) (h : Heap) : List JVal × Heap :=
  let fwd := relNameAt relationships camelCase qi
  let rev := relNameAtI relationships camelCase qr.join_index
  let h2 :=
    match mapAtI maps qr.join_index, maps.get? qi with
    | some src, some dst =>
        applyEdges dst src fwd rev qr.objects (initRel rev dst (initRel fwd src h))
    | _, _ => h
  (trees.set qi qr.tree, h2)

/-- The link pass of parse: the loop above over every element of
queryJSONResponse.results, in order, starting at stage 0. -/
def linkPassAux (relationships : List String) (camelCase : Bool) (maps : List (JObj Nat)) :
    List StageResult → Nat → List JVal × Heap → List JVal × Heap
  | [], _, st => st
  | qr :: rest, qi, st =>
      linkPassAux relationships camelCase maps rest (qi + 1)
        (linkStage relationships camelCase maps qi qr st.1 st.2)

/-- CuriousObjects.parse: when response.data is an array, run the
materialize pass then the link pass and return (combinedObjects, trees)
together with the final heap; otherwise return empty results over the
unchanged heap. -/
def parse (relationships : List String) (ctors : Option (List (Option (Props → Props))))
    (resp : Response) (ex : Option (List (Option (JObj Nat)))) (camelCase : Bool)
    (h0 : Heap) : List (JObj Nat) × List JVal × Heap :=
  match resp.data with
  | none => ([], [], h0)
  | some datas =>
      let m := materializeAll resp.results ctors ex camelCase datas 0 h0
      let lk := linkPassAux relationships camelCase m.1 resp.results 0 (m.2.1, m.2.2)
      (m.1, lk.1, lk.2)

/-! ### Derived descriptions used in theorem statements -/

/-- The entities materialized for stage qi. -/
def stageObjs (results : List StageResult) (ctors : Option (List (Option (Props → Props))))
    (camelCase : Bool) (qi : Nat) (qd : QueryData) : List Props :=
  _parseObjects qd (results.getD qi default).model (ctorAt ctors qi) camelCase

/-- The per-stage materialized entity counts, from stage qi on. -/
def stageSizes (results : List StageResult) (ctors : Option (List (Option (Props → Props))))
    (camelCase : Bool) : Nat → List QueryData → List Nat
  | _, [] => []
  | qi, qd :: rest =>
      (stageObjs results ctors camelCase qi qd).length
        :: stageSizes results ctors camelCase (qi + 1) rest

/-- The heap address of stage i's first materialized entity. -/
def stageBase (h0len : Nat) (results : List StageResult)
    (ctors : Option (List (Option (Props → Props)))) (camelCase : Bool)
    (datas : List QueryData) (i : Nat) : Nat :=
  h0len + ((stageSizes results ctors camelCase 0 datas).take i).sum

/-- The index of the last materialized row of a stage whose id coerces
to the given key, if any (duplicates: the later row wins). -/
def lastIdxWith : List Props → String → Option Nat
  | [], _ => none
  | o :: os, k =>
      match lastIdxWith os k with
      | some j => some (j + 1)
      | none => if idKeyOf o = k then some 0 else none

/-- The forward-relationship array contents predicted for the source
entity at heap reference r: one target reference per edge, in edge-list
order, for exactly the edges with truthy sourceId resolving to r whose
targetId also resolves. -/
def fwdList (dst src : JObj Nat) : List (JVal × JVal) → Nat → List Nat
  | [], _ => []
  | (t, sv) :: es, r =>
      (if sv.truthy then
        match getA dst t.keyStr, getA src sv.keyStr with
        | some rT, some rS => if rS = r then [rT] else []
        | _, _ => []
      else []) ++ fwdList dst src es r

/-- The reverse-relationship array contents predicted for the target
entity at heap reference r, symmetric to fwdList. -/
def revList (dst src : JObj Nat) : List (JVal × JVal) → Nat → List Nat
  | [], _ => []
  | (t, sv) :: es, r =>
      (if sv.truthy then
        match getA dst t.keyStr, getA src sv.keyStr with
        | some rT, some rS => if rT = r then [rS] else []
        | _, _ => []
      else []) ++ revList dst src es r

/-- The position of the first occurrence of a field name in the declared
field list. -/
def posOf : List String → String → Nat
  | [], _ => 0
  | f :: fs, g => if f = g then 0 else posOf fs g + 1

/-! ### The query term chain (CuriousQuery) -/

/-- A query term: plain join (QueryTermFollow), filter (QueryTermHaving),
negative filter (QueryTermNotHaving), outer join (QueryTermWith). -/
inductive QTerm : Type where
  | follow : String → QTerm
  | having : String → QTerm
  | notHaving : String → QTerm
  | outerJoin : String → QTerm
  deriving DecidableEq, Repr

/-- The conditional() method: true for the two filter kinds. -/
def QTerm.conditional : QTerm → Bool
  | .having _ => true
  | .notHaving _ => true
  | _ => false

/-- The leftJoin() method: true only for outer joins. -/
def QTerm.leftJoin : QTerm → Bool
  | .outerJoin _ => true
  | _ => false

/-- The per-term toString(): bare text, +(term), -(term), ?(term). -/
def QTerm.termText : QTerm → String
  | .follow t => t
  | .having t => "+(" ++ t ++ ")"
  | .notHaving t => "-(" ++ t ++ ")"
  | .outerJoin t => "?(" ++ t ++ ")"

/-- The separator inserted before a non-first term, exactly as the
if-chain of CuriousQuery.prototype.query decides it. -/
def sepFor (prev cur : QTerm) : String :=
  if cur.conditional then " "
  else if !cur.conditional && !prev.leftJoin && !cur.leftJoin then ", "
  else " "

/-- The rendering of the terms after the first, each preceded by its
separator relative to the previous term. -/
def renderFrom (prev : QTerm) : List QTerm → String
  | [] => ""
  | t :: rest => sepFor prev t ++ t.termText ++ renderFrom t rest

/-- CuriousQuery.prototype.query: the first term bare, every later term
preceded by its separator. -/
def renderQuery : List QTerm → String
  | [] => ""
  | t :: rest => t.termText ++ renderFrom t rest

/-! ### Client-side grouping of existing objects (groupObjectsByID) -/

/-- The loop of groupObjectsByID: an object is stored under its id key
when object.id === 0 or object.id is truthy, else skipped; later objects
overwrite earlier ones with the same id. -/
def groupObjectsByIDAux : List Props → JObj Props → JObj Props
  | [], m => m
  | o :: os, m =>
      groupObjectsByIDAux os
        (if ((getA o "id").getD .undef = JVal.num 0) || ((getA o "id").getD .undef).truthy
         then setA m (idKeyOf o) o
         else m)

/-- CuriousObjects.groupObjectsByID. -/
def groupObjectsByID (arrayOfObjects : List Props) : JObj Props :=
  groupObjectsByIDAux arrayOfObjects []

/-- The client's per-stage wrapper _groupArraysOfObjectsByID: map each
per-stage array to its grouped map, keeping null for a falsy entry. -/
def _groupArraysOfObjectsByID (arrays : List (Option (List Props))) :
    List (Option (JObj Props)) :=
  arrays.map (fun a =>
    match a with
    | some l => some (groupObjectsByID l)
    | none => none)

/-! ## Part 2: theorems -/

/-! ### JS object (association list) laws -/

theorem getA_setA_self {α : Type} (l : JObj α) (k : String) (v : α) :
    getA (setA l k v) k = some v := by
  induction l with
  | nil => simp [getA, setA]
  | cons p rest ih =>
      obtain ⟨k0, v0⟩ := p
      by_cases h : k0 = k <;> simp [getA, setA, h, ih]

theorem getA_setA_ne {α : Type} (l : JObj α) (k k' : String) (v : α)
    (h : k' ≠ k) : getA (setA l k v) k' = getA l k' := by
  induction l with
  | nil =>
      have hne : ¬ k = k' := fun hh => h hh.symm
      simp [getA, setA, hne]
  | cons p rest ih =>
      obtain ⟨k0, v0⟩ := p
      by_cases hk : k0 = k
      · rw [show setA ((k0, v0) :: rest) k v = (k, v) :: rest by simp [setA, hk]]
        have h1 : ¬ k = k' := fun hh => h hh.symm
        have h2 : ¬ k0 = k' := fun hh => h (hk ▸ hh.symm ▸ rfl)
        simp [getA, h1, h2]
      · rw [show setA ((k0, v0) :: rest) k v = (k0, v0) :: setA rest k v by
          simp [setA, hk]]
        by_cases hk' : k0 = k' <;> simp [getA, hk', ih]

theorem mem_setA {α : Type} (l : JObj α) (k : String) (v : α) (p : String × α)
    (hp : p ∈ setA l k v) : p = (k, v) ∨ p ∈ l := by
  induction l with
  | nil => simpa [setA] using hp
  | cons q rest ih =>
      obtain ⟨k0, v0⟩ := q
      by_cases hk : k0 = k
      · rw [show setA ((k0, v0) :: rest) k v = (k, v) :: rest by simp [setA, hk]] at hp
        rcases List.mem_cons.1 hp with h1 | h1
        · exact Or.inl h1
        · exact Or.inr (List.mem_cons_of_mem _ h1)
      · rw [show setA ((k0, v0) :: rest) k v = (k0, v0) :: setA rest k v by
          simp [setA, hk]] at hp
        rcases List.mem_cons.1 hp with h1 | h1
        · exact Or.inr (h1 ▸ List.mem_cons_self _ _)
        · rcases ih h1 with h2 | h2
          · exact Or.inl h2
          · exact Or.inr (List.mem_cons_of_mem _ h2)

theorem getA_mem {α : Type} (l : JObj α) (k : String) (v : α)
    (h : getA l k = some v) : (k, v) ∈ l := by
  induction l with
  | nil => simp [getA] at h
  | cons q rest ih =>
      obtain ⟨k0, v0⟩ := q
      by_cases hk : k0 = k
      · rw [show getA ((k0, v0) :: rest) k = some v0 by simp [getA, hk]] at h
        have : v0 = v := Option.some.inj h
        exact hk ▸ this ▸ List.mem_cons_self _ _
      · rw [show getA ((k0, v0) :: rest) k = getA rest k by simp [getA, hk]] at h
        exact List.mem_cons_of_mem _ (ih h)

theorem keysOf_setA {α : Type} (l : JObj α) (k : String) (v : α) :
    keysOf (setA l k v) = keysOf l ∨ keysOf (setA l k v) = keysOf l ++ [k] := by
  induction l with
  | nil => right; simp [setA, keysOf]
  | cons q rest ih =>
      obtain ⟨k0, v0⟩ := q
      by_cases hk : k0 = k
      · left
        rw [show setA ((k0, v0) :: rest) k v = (k, v) :: rest by simp [setA, hk]]
        simp [keysOf, hk]
      · rw [show setA ((k0, v0) :: rest) k v = (k0, v0) :: setA rest k v by
          simp [setA, hk]]
        rcases ih with h | h
        · left; simp [keysOf] at h ⊢; exact h
        · right; simp [keysOf] at h ⊢; exact h

theorem nodup_keysOf_setA {α : Type} (l : JObj α) (k : String) (v : α)
    (h : (keysOf l).Nodup) : (keysOf (setA l k v)).Nodup := by
  induction l with
  | nil => simp [setA, keysOf]
  | cons q rest ih =>
      obtain ⟨k0, v0⟩ := q
      simp only [keysOf, List.map_cons, List.nodup_cons] at h
      by_cases hk : k0 = k
      · rw [show setA ((k0, v0) :: rest) k v = (k, v) :: rest by simp [setA, hk]]
        simp only [keysOf, List.map_cons, List.nodup_cons]
        exact ⟨hk ▸ h.1, h.2⟩
      · rw [show setA ((k0, v0) :: rest) k v = (k0, v0) :: setA rest k v by
          simp [setA, hk]]
        simp only [keysOf, List.map_cons, List.nodup_cons]
        refine ⟨?_, ih h.2⟩
        intro hmem
        rcases keysOf_setA rest k v with he | he
        · simp only [keysOf] at he hmem
          rw [he] at hmem
          exact h.1 hmem
        · simp only [keysOf] at he hmem
          rw [he] at hmem
          rcases List.mem_append.1 hmem with hmem | hmem
          · exact h.1 hmem
          · simp at hmem; exact hk hmem

/-! ### Lemmas about splitSep and the camel-case transform -/

theorem splitSep_ne_nil (cs : List Char) : splitSep cs ≠ [] := by
  cases cs with
  | nil => simp [splitSep]
  | cons c rest =>
      simp only [splitSep]
      rcases h : splitSep rest with _ | ⟨g, gs⟩
      · simp
      · by_cases hs : isSep c <;> simp [hs]

theorem splitSep_len_one (cs : List Char) (h : (splitSep cs).length = 1) :
    splitSep cs = [cs] := by
  induction cs with
  | nil => simp [splitSep]
  | cons c rest ih =>
      rcases hsp : splitSep rest with _ | ⟨g, gs⟩
      · exact absurd hsp (splitSep_ne_nil rest)
      · by_cases hs : isSep c
        · rw [show splitSep (c :: rest) = [] :: g :: gs by simp [splitSep, hsp, hs]] at h
          simp at h
        · rw [show splitSep (c :: rest) = (c :: g) :: gs by simp [splitSep, hsp, hs]] at h ⊢
          simp only [List.length_cons] at h
          have hgs : gs = [] := List.length_eq_zero.1 (by omega)
          subst hgs
          have : splitSep rest = [rest] := ih (by rw [hsp]; rfl)
          rw [hsp] at this
          simp only [List.cons.injEq] at this
          simp [this.1]

theorem takeWhile_all_eq {p : Char → Bool} (l : List Char) (h : ∀ c ∈ l, p c) :
    l.takeWhile p = l := by
  induction l with
  | nil => rfl
  | cons c rest ih =>
      have hc : p c := h c (List.mem_cons_self _ _)
      simp only [List.takeWhile_cons, hc, if_pos]
      rw [ih (fun c' hc' => h c' (List.mem_cons_of_mem _ hc'))]

theorem drop_len_takeWhile {p : Char → Bool} (l : List Char) :
    l.drop (l.takeWhile p).length = l.dropWhile p := by
  induction l with
  | nil => rfl
  | cons c rest ih =>
      by_cases hc : p c
      · simp [List.takeWhile_cons, List.dropWhile_cons, hc, ih]
      · simp [List.takeWhile_cons, List.dropWhile_cons, hc]

theorem dropWhile_head_not {p : Char → Bool} (l : List Char)
    (h : l.dropWhile p ≠ []) : ∃ c t, l.dropWhile p = c :: t ∧ p c = false := by
  induction l with
  | nil => simp [List.dropWhile] at h
  | cons c rest ih =>
      by_cases hc : p c
      · rw [show (c :: rest).dropWhile p = rest.dropWhile p by simp [List.dropWhile_cons, hc]] at h ⊢
        exact ih h
      · refine ⟨c, rest, ?_, by simpa using hc⟩
        simp [List.dropWhile_cons, hc]

theorem takeWhile_append_left {p : Char → Bool} (a b : List Char)
    (h : ∃ x ∈ a, p x = false) : (a ++ b).takeWhile p = a.takeWhile p := by
  induction a with
  | nil =>
      obtain ⟨x, hx, _⟩ := h
      simp at hx
  | cons c rest ih =>
      by_cases hc : p c
      · obtain ⟨x, hx, hpx⟩ := h
        rcases List.mem_cons.1 hx with hx | hx
        · subst hx
          rw [hc] at hpx
          simp at hpx
        · simp only [List.cons_append, List.takeWhile_cons, hc, if_pos]
          rw [ih ⟨x, hx, hpx⟩]
      · simp [List.takeWhile_cons, hc]

/-- Generic three-region decomposition: when the camelStr regions are
given by abstract lists satisfying the defining equations, the regions
concatenate back to the input. -/
theorem split3_of (cs lead rest tw dw : List Char)
    (h1 : lead ++ rest = cs)
    (h2 : cs.drop lead.length = rest)
    (h3 : tw ++ dw = rest.reverse)
    (hlead : leadOf cs = lead)
    (htrail : trailOf cs = tw.reverse) :
    leadOf cs ++ bodyOf cs ++ trailOf cs = cs := by
  have hrest : rest = dw.reverse ++ tw.reverse := by
    have h4 := congrArg List.reverse h3
    simpa using h4.symm
  have hlcs : cs.length = lead.length + rest.length := by
    rw [← h1]
    simp only [List.length_append]
  have hlrest : rest.length = dw.length + tw.length := by
    rw [hrest]
    simp only [List.length_append, List.length_reverse]
  have harr : cs.length - lead.length - tw.reverse.length = dw.reverse.length := by
    simp only [List.length_reverse]
    omega
  have hbody : bodyOf cs = dw.reverse := by
    simp only [bodyOf, hlead, htrail, h2]
    rw [harr]
    conv_lhs => rw [hrest]
    exact List.take_left _ _
  rw [hlead, hbody, htrail, List.append_assoc, ← hrest]
  exact h1

/-- Decomposition of the input string into the three regions camelStr
works with: leading separators, body, trailing separators. -/
theorem camel_split (cs : List Char)
    (hne : ¬ (leadOf cs).length = cs.length) :
    leadOf cs ++ bodyOf cs ++ trailOf cs = cs := by
  have hsplit : cs.takeWhile isSep ++ cs.dropWhile isSep = cs :=
    List.takeWhile_append_dropWhile isSep cs
  have hdrop : cs.drop (cs.takeWhile isSep).length = cs.dropWhile isSep :=
    drop_len_takeWhile cs
  have hrne : cs.dropWhile isSep ≠ [] := by
    intro hempty
    apply hne
    simp only [leadOf]
    conv_rhs => rw [← hsplit]
    rw [hempty, List.append_nil]
  obtain ⟨c, t, hct, hc⟩ := dropWhile_head_not cs hrne
  have hex : ∃ x ∈ (cs.dropWhile isSep).reverse, isSep x = false := by
    refine ⟨c, ?_, hc⟩
    rw [hct]; simp
  have hcrev : cs.reverse = (cs.dropWhile isSep).reverse ++ (cs.takeWhile isSep).reverse := by
    conv_lhs => rw [← hsplit]
    simp
  have htw : cs.reverse.takeWhile isSep = (cs.dropWhile isSep).reverse.takeWhile isSep := by
    rw [hcrev]
    exact takeWhile_append_left _ _ hex
  have htrail : trailOf cs = ((cs.dropWhile isSep).reverse.takeWhile isSep).reverse := by
    simp only [trailOf, htw]
  exact split3_of cs (cs.takeWhile isSep) (cs.dropWhile isSep)
    ((cs.dropWhile isSep).reverse.takeWhile isSep)
    ((cs.dropWhile isSep).reverse.dropWhile isSep)
    hsplit hdrop (List.takeWhile_append_dropWhile isSep _) rfl htrail

/-- When the body has at most one component, camelStr returns the input
unchanged. -/
theorem camelStr_single (s : String)
    (h : (splitSep (bodyOf s.toList)).length ≤ 1) : camelStr s = s := by
  by_cases hall : (leadOf s.toList).length = s.toList.length
  · simp only [camelStr]
    rw [if_pos hall]
  · have hone : (splitSep (bodyOf s.toList)).length = 1 := by
      have := splitSep_ne_nil (bodyOf s.toList)
      have hpos : 0 < (splitSep (bodyOf s.toList)).length := List.length_pos.2 this
      omega
    have hnotlt : ¬ 1 < (splitSep (bodyOf s.toList)).length := by omega
    have heq : splitSep (bodyOf s.toList) = [bodyOf s.toList] := splitSep_len_one _ hone
    simp only [camelStr]
    rw [if_neg hall, if_neg hnotlt, heq]
    rw [show ([bodyOf s.toList] : List (List Char)).flatten = bodyOf s.toList by simp]
    rw [camel_split s.toList hall]
    cases s
    rfl

/-- Claim C8: the camel-case naming transform maps "_a_single" to
"_aSingle" and "a--single" to "aSingle", passes null and undefined
through unchanged, returns separator-only strings unchanged, and returns
any input whose body has no internal separator (a single segment)
unchanged in its casing. The function is total, so it raises no
exception on any string, null, or undefined input. -/
theorem claim_C8 :
    makeCamelCase (.str "_a_single") = .str "_aSingle"
    ∧ makeCamelCase (.str "a--single") = .str "aSingle"
    ∧ makeCamelCase JVal.null = JVal.null
    ∧ makeCamelCase JVal.undef = JVal.undef
    ∧ (∀ s : String, (∀ c ∈ s.toList, isSep c) → makeCamelCase (.str s) = .str s)
    ∧ (∀ s : String, (splitSep (bodyOf s.toList)).length ≤ 1 →
        makeCamelCase (.str s) = .str s) := by
  refine ⟨by decide, by decide, rfl, rfl, ?_, ?_⟩
  · intro s hs
    by_cases hempty : s = ""
    · simp [makeCamelCase, hempty]
    · have hlead : (leadOf s.toList).length = s.toList.length := by
        have h1 : leadOf s.toList = s.toList := takeWhile_all_eq s.toList hs
        rw [h1]
      have hcs : camelStr s = s := by
        simp only [camelStr]
        rw [if_pos hlead]
      simp [makeCamelCase, hempty, hcs]
  · intro s hs
    by_cases hempty : s = ""
    · simp [makeCamelCase, hempty]
    · simp [makeCamelCase, hempty, camelStr_single s hs]

/-- Witness for C8 at the separator-only input "___". -/
theorem claim_C8_witness : makeCamelCase (.str "___") = .str "___" :=
  claim_C8.2.2.2.2.1 "___" (by decide)

/-! ### Lemmas about the query term chain renderer -/

theorem renderFrom_append (pre : List QTerm) (x : QTerm) (rest : List QTerm) :
    ∀ prev : QTerm, renderFrom prev (pre ++ x :: rest)
      = renderFrom prev (pre ++ [x]) ++ renderFrom x rest := by
  induction pre with
  | nil =>
      intro prev
      simp only [List.nil_append, renderFrom, String.append_assoc, String.append_empty]
  | cons t pre' ih =>
      intro prev
      simp only [List.cons_append, renderFrom, String.append_assoc, List.append_eq]
      rw [ih t]

theorem renderQuery_append (pre : List QTerm) (x : QTerm) (rest : List QTerm) :
    renderQuery (pre ++ x :: rest)
      = renderQuery (pre ++ [x]) ++ renderFrom x rest := by
  cases pre with
  | nil =>
      simp only [List.nil_append, renderQuery, renderFrom, String.append_assoc,
        String.append_empty]
  | cons q pre' =>
      simp only [List.cons_append, renderQuery, renderFrom_append pre' x rest q,
        String.append_assoc]

/-- Claim C9: a chain with zero terms renders to the empty string;
between two consecutive plain Join (follow) terms the renderer inserts
the separator ", "; between a plain Join term and an adjacent Outer-Join
term, in either order, it inserts a single " " and no comma. -/
theorem claim_C9 :
    renderQuery [] = ""
    ∧ (∀ (pre : List QTerm) (a b : String) (post : List QTerm),
        renderQuery (pre ++ QTerm.follow a :: QTerm.follow b :: post)
          = renderQuery (pre ++ [QTerm.follow a])
            ++ (", " ++ ((QTerm.follow b).termText ++ renderFrom (QTerm.follow b) post)))
    ∧ (∀ (pre : List QTerm) (a b : String) (post : List QTerm),
        renderQuery (pre ++ QTerm.follow a :: QTerm.outerJoin b :: post)
          = renderQuery (pre ++ [QTerm.follow a])
            ++ (" " ++ ((QTerm.outerJoin b).termText ++ renderFrom (QTerm.outerJoin b) post)))
    ∧ (∀ (pre : List QTerm) (a b : String) (post : List QTerm),
        renderQuery (pre ++ QTerm.outerJoin a :: QTerm.follow b :: post)
          = renderQuery (pre ++ [QTerm.outerJoin a])
            ++ (" " ++ ((QTerm.follow b).termText ++ renderFrom (QTerm.follow b) post))) := by
  refine ⟨rfl, ?_, ?_, ?_⟩
  · intro pre a b post
    rw [renderQuery_append pre (QTerm.follow a) (QTerm.follow b :: post)]
    rw [show renderFrom (QTerm.follow a) (QTerm.follow b :: post)
      = ", " ++ ((QTerm.follow b).termText ++ renderFrom (QTerm.follow b) post) by
        simp [renderFrom, sepFor, QTerm.conditional, QTerm.leftJoin, String.append_assoc]]
  · intro pre a b post
    rw [renderQuery_append pre (QTerm.follow a) (QTerm.outerJoin b :: post)]
    rw [show renderFrom (QTerm.follow a) (QTerm.outerJoin b :: post)
      = " " ++ ((QTerm.outerJoin b).termText ++ renderFrom (QTerm.outerJoin b) post) by
        simp [renderFrom, sepFor, QTerm.conditional, QTerm.leftJoin, String.append_assoc]]
  · intro pre a b post
    rw [renderQuery_append pre (QTerm.outerJoin a) (QTerm.follow b :: post)]
    rw [show renderFrom (QTerm.outerJoin a) (QTerm.follow b :: post)
      = " " ++ ((QTerm.follow b).termText ++ renderFrom (QTerm.follow b) post) by
        simp [renderFrom, sepFor, QTerm.conditional, QTerm.leftJoin, String.append_assoc]]

/-! ### Lemmas about groupObjectsByID -/

theorem groupObjectsByIDAux_append (objs : List Props) (o : Props) :
    ∀ m : JObj Props, groupObjectsByIDAux (objs ++ [o]) m
      = if ((getA o "id").getD .undef = JVal.num 0) || ((getA o "id").getD .undef).truthy
        then setA (groupObjectsByIDAux objs m) (idKeyOf o) o
        else groupObjectsByIDAux objs m := by
  induction objs with
  | nil =>
      intro m
      by_cases hc : ((getA o "id").getD .undef = JVal.num 0) || ((getA o "id").getD .undef).truthy
        <;> simp [groupObjectsByIDAux, hc]
  | cons p rest ih =>
      intro m
      simp only [List.cons_append, groupObjectsByIDAux, List.append_eq]
      rw [ih]

/-- Claim C10: grouping an array of existing objects by id keeps exactly
the objects whose id is the number 0 or truthy; an object with a falsy
non-zero id (null, undefined, false, NaN, the empty string) is silently
omitted; and when two objects share an id key the later one in the array
wins (the id key is stored by setA, which overwrites). -/
theorem claim_C10 :
    (∀ (objs : List Props) (o : Props),
      groupObjectsByID (objs ++ [o])
        = if ((getA o "id").getD .undef = JVal.num 0) || ((getA o "id").getD .undef).truthy
          then setA (groupObjectsByID objs) (idKeyOf o) o
          else groupObjectsByID objs)
    ∧ (∀ (objs : List Props) (o : Props),
        (((getA o "id").getD .undef = JVal.num 0) ∨ ((getA o "id").getD .undef).truthy) →
        getA (groupObjectsByID (objs ++ [o])) (idKeyOf o) = some o)
    ∧ (∀ (objs : List Props) (o : Props) (k : String),
        ¬ ((getA o "id").getD .undef = JVal.num 0) →
        ((getA o "id").getD .undef).truthy = false →
        getA (groupObjectsByID (objs ++ [o])) k = getA (groupObjectsByID objs) k)
    ∧ groupObjectsByID [[("id", JVal.null)]] = []
    ∧ groupObjectsByID [[("id", JVal.undef)]] = []
    ∧ groupObjectsByID [[("id", JVal.bool false)]] = []
    ∧ groupObjectsByID [[("id", JVal.nan)]] = []
    ∧ groupObjectsByID [[("id", JVal.str "")]] = []
    ∧ groupObjectsByID [[("id", JVal.num 0)]] = [("0", [("id", JVal.num 0)])] := by
  refine ⟨?_, ?_, ?_, by decide, by decide, by decide, by decide, by decide, by decide⟩
  · intro objs o
    exact groupObjectsByIDAux_append objs o []
  · intro objs o hc
    have hb : ((getA o "id").getD .undef = JVal.num 0) || ((getA o "id").getD .undef).truthy := by
      rcases hc with hc | hc
      · simp [hc]
      · simp [hc]
    rw [show groupObjectsByID (objs ++ [o])
        = setA (groupObjectsByID objs) (idKeyOf o) o by
      rw [groupObjectsByID, groupObjectsByID, groupObjectsByIDAux_append objs o [], if_pos hb]]
    exact getA_setA_self _ _ _
  · intro objs o k h0 ht
    have hb : ¬ (((getA o "id").getD .undef = JVal.num 0)
        || ((getA o "id").getD .undef).truthy) = true := by
      simp [h0, ht]
    rw [groupObjectsByID, groupObjectsByID, groupObjectsByIDAux_append objs o [],
      if_neg hb]

/-- Witness for C10 at an object with a truthy numeric id. -/
theorem claim_C10_witness :
    getA (groupObjectsByID ([] ++ [[("id", JVal.num 5)]]))
      (idKeyOf [("id", JVal.num 5)]) = some [("id", JVal.num 5)] :=
  claim_C10.2.1 [] [("id", JVal.num 5)] (Or.inr (by decide))

/-! ### Lemmas about the materializer -/

theorem headD_eq_getD_zero (row : List JVal) (d : JVal) : row.headD d = row.getD 0 d := by
  cases row <;> rfl

theorem getD_tail (row : List JVal) (j : Nat) (d : JVal) :
    row.tail.getD j d = row.getD (j + 1) d := by
  cases row <;> rfl

theorem buildObjectData_getA_not_mem (fields : List String) :
    ∀ (row : List JVal) (acc : Props) (k : String), k ∉ fields →
      getA (buildObjectData fields row acc) k = getA acc k := by
  induction fields with
  | nil => intro row acc k _; rfl
  | cons f fs ih =>
      intro row acc k hk
      have hkf : k ≠ f := fun h => hk (h ▸ List.mem_cons_self _ _)
      have hkfs : k ∉ fs := fun h => hk (List.mem_cons_of_mem _ h)
      simp only [buildObjectData]
      rw [ih _ _ _ hkfs, getA_setA_ne _ _ _ _ hkf]

theorem buildObjectData_getA (fields : List String) :
    ∀ (row : List JVal) (acc : Props) (f : String), fields.Nodup → f ∈ fields →
      getA (buildObjectData fields row acc) f = some (row.getD (posOf fields f) .undef) := by
  induction fields with
  | nil => intro row acc f _ hmem; simp at hmem
  | cons g fs ih =>
      intro row acc f hnd hmem
      simp only [List.nodup_cons] at hnd
      by_cases hg : g = f
      · subst hg
        have hnot : g ∉ fs := hnd.1
        simp only [buildObjectData]
        rw [buildObjectData_getA_not_mem fs _ _ _ hnot, getA_setA_self]
        rw [show posOf (g :: fs) g = 0 by simp [posOf]]
        rw [headD_eq_getD_zero]
      · have hmem' : f ∈ fs := by
          rcases List.mem_cons.1 hmem with h | h
          · exact absurd h.symm hg
          · exact h
        simp only [buildObjectData]
        rw [ih _ _ _ hnd.2 hmem']
        rw [show posOf (g :: fs) f = posOf fs f + 1 by simp [posOf, hg]]
        rw [getD_tail]

theorem buildObjectData_keys (fields : List String) :
    ∀ (row : List JVal) (acc : Props) (p : String × JVal),
      p ∈ buildObjectData fields row acc → p.1 ∈ fields ∨ p ∈ acc := by
  induction fields with
  | nil => intro row acc p hp; exact Or.inr hp
  | cons f fs ih =>
      intro row acc p hp
      simp only [buildObjectData] at hp
      rcases ih _ _ _ hp with h | h
      · exact Or.inl (List.mem_cons_of_mem _ h)
      · rcases mem_setA _ _ _ _ h with h' | h'
        · left
          rw [h']
          exact List.mem_cons_self _ _
        · exact Or.inr h'

theorem buildObjectData_nodup_keys (fields : List String) :
    ∀ (row : List JVal) (acc : Props), (keysOf acc).Nodup →
      (keysOf (buildObjectData fields row acc)).Nodup := by
  induction fields with
  | nil => intro row acc h; exact h
  | cons f fs ih =>
      intro row acc h
      simp only [buildObjectData]
      exact ih _ _ (nodup_keysOf_setA _ _ _ h)

theorem cuCopy_frame (camelCase : Bool) (entries : Props) :
    ∀ (obj : Props) (K : String), (∀ p ∈ entries, tfName camelCase p.1 ≠ K) →
      getA (cuCopy camelCase entries obj) K = getA obj K := by
  induction entries with
  | nil => intro obj K _; rfl
  | cons p rest ih =>
      intro obj K h
      obtain ⟨k, v⟩ := p
      simp only [cuCopy]
      rw [ih _ _ (fun q hq => h q (List.mem_cons_of_mem _ hq))]
      exact getA_setA_ne _ _ _ _ (fun he =>
        h (k, v) (List.mem_cons_self _ _) he.symm)

theorem cuCopy_getA (camelCase : Bool) (entries : Props) (f : String) (vf : JVal)
    (K : String) :
    ∀ obj : Props, tfName camelCase f = K → (keysOf entries).Nodup →
      getA entries f = some vf →
      (∀ p ∈ entries, tfName camelCase p.1 = K → p.1 = f) →
      getA (cuCopy camelCase entries obj) K = some vf := by
  induction entries with
  | nil => intro obj _ _ hval _; simp [getA] at hval
  | cons p rest ih =>
      intro obj hK hnd hval huni
      obtain ⟨k, v⟩ := p
      simp only [keysOf, List.map_cons, List.nodup_cons] at hnd
      by_cases hk : k = f
      · subst hk
        rw [show getA ((k, v) :: rest) k = some v by simp [getA]] at hval
        have hv : v = vf := Option.some.inj hval
        subst hv
        simp only [cuCopy]
        have hrest : ∀ p ∈ rest, tfName camelCase p.1 ≠ K := by
          intro q hq he
          have : q.1 = k := huni q (List.mem_cons_of_mem _ hq) he
          apply hnd.1
          rw [← this]
          exact List.mem_map_of_mem Prod.fst hq
        rw [cuCopy_frame _ _ _ _ hrest, hK, getA_setA_self]
      · have hkK : tfName camelCase k ≠ K := fun he =>
          hk (huni (k, v) (List.mem_cons_self _ _) he)
        rw [show getA ((k, v) :: rest) f = getA rest f by simp [getA, hk]] at hval
        simp only [cuCopy]
        exact ih _ hK hnd.2 hval (fun q hq => huni q (List.mem_cons_of_mem _ hq))

theorem reassignFields_frame (camelCase : Bool) (od : Props) (fs : List String) :
    ∀ (obj : Props) (K : String), (∀ g ∈ fs, tfName camelCase g ≠ K) →
      getA (reassignFields camelCase od fs obj) K = getA obj K := by
  induction fs with
  | nil => intro obj K _; rfl
  | cons g gs ih =>
      intro obj K h
      simp only [reassignFields]
      rw [ih _ _ (fun q hq => h q (List.mem_cons_of_mem _ hq))]
      exact getA_setA_ne _ _ _ _ (fun he =>
        h g (List.mem_cons_self _ _) he.symm)

theorem reassignFields_getA (camelCase : Bool) (od : Props) (fields : List String)
    (f K : String) :
    ∀ obj : Props, tfName camelCase f = K → fields.Nodup → f ∈ fields →
      (∀ g ∈ fields, tfName camelCase g = K → g = f) →
      getA (reassignFields camelCase od fields obj) K
        = some ((getA od f).getD .undef) := by
  induction fields with
  | nil => intro obj _ _ hmem _; simp at hmem
  | cons g gs ih =>
      intro obj hK hnd hmem huni
      simp only [List.nodup_cons] at hnd
      by_cases hg : g = f
      · subst hg
        simp only [reassignFields]
        have hrest : ∀ g' ∈ gs, tfName camelCase g' ≠ K := by
          intro g' hg' he
          have : g' = g := huni g' (List.mem_cons_of_mem _ hg') he
          exact hnd.1 (this ▸ hg')
        rw [reassignFields_frame _ _ _ _ _ hrest, hK, getA_setA_self]
      · have hmem' : f ∈ gs := by
          rcases List.mem_cons.1 hmem with h | h
          · exact absurd h.symm hg
          · exact h
        simp only [reassignFields]
        exact ih _ hK hnd.2 hmem' (fun q hq => huni q (List.mem_cons_of_mem _ hq))

theorem buildOne_model (fields : List String) (url : JVal) (model : String)
    (ctor : Option (Props → Props)) (camelCase : Bool) (row : List JVal) :
    getA (buildOne fields url model ctor camelCase row) "__model"
      = some (.str model) := by
  simp only [buildOne]
  exact getA_setA_self _ _ _

theorem buildOne_url (fields : List String) (url : JVal) (model : String)
    (ctor : Option (Props → Props)) (camelCase : Bool) (row : List JVal) :
    getA (buildOne fields url model ctor camelCase row) "__url" = some url := by
  simp only [buildOne]
  rw [getA_setA_ne _ _ _ _ (by decide), getA_setA_self]

theorem buildOne_field (fields : List String) (url : JVal) (model : String)
    (ctor : Option (Props → Props)) (camelCase : Bool) (row : List JVal)
    (f K : String) (hK : tfName camelCase f = K) (hnd : fields.Nodup)
    (hmem : f ∈ fields) (huni : ∀ g ∈ fields, tfName camelCase g = K → g = f)
    (hKu : K ≠ "__url") (hKm : K ≠ "__model") :
    getA (buildOne fields url model ctor camelCase row) K
      = some (row.getD (posOf fields f) .undef) := by
  simp only [buildOne]
  rw [getA_setA_ne _ _ _ _ hKm, getA_setA_ne _ _ _ _ hKu]
  cases ctor with
  | some fac =>
      rw [reassignFields_getA camelCase _ fields f K _ hK hnd hmem huni]
      rw [buildObjectData_getA fields row [] f hnd hmem]
      rfl
  | none =>
      simp only [CuriousObject]
      have hval : getA (buildObjectData fields row []) f
          = some (row.getD (posOf fields f) .undef) :=
        buildObjectData_getA fields row [] f hnd hmem
      refine cuCopy_getA camelCase _ f _ K _ hK ?_ hval ?_
      · exact buildObjectData_nodup_keys fields row [] (by simp [keysOf])
      · intro p hp he
        rcases buildObjectData_keys fields row [] p hp with h | h
        · exact huni p.1 h he
        · simp at h

theorem parseObjectsAux_length (fields : List String) (urls : List JVal) (model : String)
    (ctor : Option (Props → Props)) (camelCase : Bool) :
    ∀ (rows : List (List JVal)) (base : Nat),
      (parseObjectsAux fields urls model ctor camelCase rows base).length = rows.length := by
  intro rows
  induction rows with
  | nil => intro base; rfl
  | cons row rest ih =>
      intro base
      simp only [parseObjectsAux, List.length_cons, ih]

theorem parseObjectsAux_get? (fields : List String) (urls : List JVal) (model : String)
    (ctor : Option (Props → Props)) (camelCase : Bool) :
    ∀ (rows : List (List JVal)) (base k : Nat),
      (parseObjectsAux fields urls model ctor camelCase rows base).get? k
        = (rows.get? k).map
            (fun row => buildOne fields (urls.getD (base + k) .undef) model ctor camelCase row) := by
  intro rows
  induction rows with
  | nil => intro base k; simp [parseObjectsAux]
  | cons row rest ih =>
      intro base k
      cases k with
      | zero => simp [parseObjectsAux]
      | succ k' =>
          simp only [parseObjectsAux, List.get?_cons_succ, ih (base + 1) k']
          rw [show base + 1 + k' = base + (k' + 1) by omega]

/-- Claim C5: for well-formed columnar stage data with N rows,
_parseObjects returns exactly N entities in row order; entity k carries
__url equal to urls[k] and __model equal to the stage's model name; when
the declared fields are distinct, contain "id", and no other field
transforms to the key "id", entity k's id property equals row k's id
field value; and when the objects member is absent or not an array the
result is the empty list, with no error. -/
theorem claim_C5 :
    (∀ (qd : QueryData) (model : String) (ctor : Option (Props → Props)) (camelCase : Bool),
      qd.objects = none → _parseObjects qd model ctor camelCase = [])
    ∧ (∀ (qd : QueryData) (model : String) (ctor : Option (Props → Props)) (camelCase : Bool)
        (rows : List (List JVal)), qd.objects = some rows →
        (_parseObjects qd model ctor camelCase).length = rows.length)
    ∧ (∀ (qd : QueryData) (model : String) (ctor : Option (Props → Props)) (camelCase : Bool)
        (k : Nat) (ek : Props),
        (_parseObjects qd model ctor camelCase).get? k = some ek →
        getA ek "__url" = some (qd.urls.getD k .undef)
          ∧ getA ek "__model" = some (.str model))
    ∧ (∀ (qd : QueryData) (model : String) (ctor : Option (Props → Props)) (camelCase : Bool)
        (rows : List (List JVal)) (k : Nat) (ek : Props) (row : List JVal),
        qd.objects = some rows →
        (_parseObjects qd model ctor camelCase).get? k = some ek →
        rows.get? k = some row →
        qd.fields.Nodup → "id" ∈ qd.fields →
        (∀ g ∈ qd.fields, tfName camelCase g = "id" → g = "id") →
        getA ek "id" = some (row.getD (posOf qd.fields "id") .undef)) := by
  refine ⟨?_, ?_, ?_, ?_⟩
  · intro qd model ctor camelCase h
    simp [_parseObjects, h]
  · intro qd model ctor camelCase rows h
    simp [_parseObjects, h, parseObjectsAux_length]
  · intro qd model ctor camelCase k ek hget
    rcases hobj : qd.objects with _ | rows
    · rw [show _parseObjects qd model ctor camelCase = [] by simp [_parseObjects, hobj]] at hget
      simp at hget
    · rw [show _parseObjects qd model ctor camelCase
          = parseObjectsAux qd.fields qd.urls model ctor camelCase rows 0 by
        simp [_parseObjects, hobj]] at hget
      rw [parseObjectsAux_get?] at hget
      rcases Option.map_eq_some'.1 hget with ⟨row, _, hek⟩
      rw [← hek]
      rw [show (0 : Nat) + k = k by omega]
      exact ⟨buildOne_url _ _ _ _ _ _, buildOne_model _ _ _ _ _ _⟩
  · intro qd model ctor camelCase rows k ek row hobj hget hrow hnd hmem huni
    rw [show _parseObjects qd model ctor camelCase
        = parseObjectsAux qd.fields qd.urls model ctor camelCase rows 0 by
      simp [_parseObjects, hobj]] at hget
    rw [parseObjectsAux_get?] at hget
    rcases Option.map_eq_some'.1 hget with ⟨row', hrow', hek⟩
    rw [hrow] at hrow'
    have hre : row' = row := (Option.some.inj hrow').symm
    rw [hre] at hek
    rw [← hek]
    have hid : tfName camelCase "id" = "id" := by cases camelCase <;> decide
    exact buildOne_field qd.fields _ model ctor camelCase row "id" "id" hid hnd hmem
      huni (by decide) (by decide)

/-- Witness for C5 at a stage whose objects member is absent. -/
theorem claim_C5_witness :
    _parseObjects ⟨["id"], none, []⟩ "M" none false = [] :=
  claim_C5.1 ⟨["id"], none, []⟩ "M" none false rfl

/-- Claim C6: with a custom factory, every declared field is re-assigned
from the row's field map onto the factory-produced instance (key
camel-cased when requested), overwriting any same-named property the
factory set, so the materialized value of such a field never depends on
the factory. The conclusion below holds for every factory function fac
and mentions fac nowhere, which is exactly the overwrite guarantee. -/
theorem claim_C6 (qd : QueryData) (model : String) (fac : Props → Props)
    (camelCase : Bool) (rows : List (List JVal)) (k : Nat) (ek : Props)
    (row : List JVal) (f : String)
    (hobj : qd.objects = some rows)
    (hget : (_parseObjects qd model (some fac) camelCase).get? k = some ek)
    (hrow : rows.get? k = some row)
    (hnd : qd.fields.Nodup) (hmem : f ∈ qd.fields)
    (huni : ∀ g ∈ qd.fields, tfName camelCase g = tfName camelCase f → g = f)
    (hKu : tfName camelCase f ≠ "__url") (hKm : tfName camelCase f ≠ "__model") :
    getA ek (tfName camelCase f) = some (row.getD (posOf qd.fields f) .undef) := by
  rw [show _parseObjects qd model (some fac) camelCase
      = parseObjectsAux qd.fields qd.urls model (some fac) camelCase rows 0 by
    simp [_parseObjects, hobj]] at hget
  rw [parseObjectsAux_get?] at hget
  rcases Option.map_eq_some'.1 hget with ⟨row', hrow', hek⟩
  rw [hrow] at hrow'
  have hre : row' = row := (Option.some.inj hrow').symm
  rw [hre] at hek
  rw [← hek]
  exact buildOne_field qd.fields _ model (some fac) camelCase row f _ rfl hnd hmem
    huni hKu hKm

/-- Witness for C6: a factory that sets the "name" field is overwritten
by the row's value. -/
theorem claim_C6_witness :
    getA (buildOne ["id", "name"] JVal.undef "M"
        (some (fun _ => [("name", JVal.str "factory")])) false
        [JVal.num 1, JVal.str "real"])
      "name" = some (JVal.str "real") :=
  claim_C6 ⟨["id", "name"], some [[JVal.num 1, JVal.str "real"]], []⟩ "M"
    (fun _ => [("name", JVal.str "factory")]) false
    [[JVal.num 1, JVal.str "real"]] 0
    (buildOne ["id", "name"] JVal.undef "M"
      (some (fun _ => [("name", JVal.str "factory")])) false
      [JVal.num 1, JVal.str "real"])
    [JVal.num 1, JVal.str "real"] "name"
    rfl rfl rfl (by decide) (by decide)
    (by intro g hg he; revert he; fin_cases hg <;> decide)
    (by decide) (by decide)

/-! ### Heap primitive lemmas -/

theorem setE_oob (h : Heap) (r : Nat) (e : Props) (hr : h.length ≤ r) :
    setE h r e = h := by
  induction h generalizing r with
  | nil => rfl
  | cons x t ih =>
      cases r with
      | zero => simp at hr
      | succ r' =>
          simp only [setE, List.set]
          rw [show List.set t r' e = setE t r' e from rfl, ih r' (by simpa using hr)]

theorem getE_oob (h : Heap) (r : Nat) (hr : h.length ≤ r) : getE h r = [] := by
  induction h generalizing r with
  | nil => rfl
  | cons x t ih =>
      cases r with
      | zero => simp at hr
      | succ r' => exact ih r' (by simpa using hr)

theorem length_setE (h : Heap) (r : Nat) (e : Props) : (setE h r e).length = h.length :=
  List.length_set h r e

theorem getE_setE_self (h : Heap) (r : Nat) (e : Props) (hr : r < h.length) :
    getE (setE h r e) r = e := by
  induction h generalizing r with
  | nil => simp at hr
  | cons x t ih =>
      cases r with
      | zero => rfl
      | succ r' => exact ih r' (by simpa using hr)

theorem getE_setE_ne (h : Heap) (r r' : Nat) (e : Props) (hne : r ≠ r') :
    getE (setE h r' e) r = getE h r := by
  induction h generalizing r r' with
  | nil => rfl
  | cons x t ih =>
      cases r' with
      | zero =>
          cases r with
          | zero => exact absurd rfl hne
          | succ r2 => rfl
      | succ r2 =>
          cases r with
          | zero => rfl
          | succ r3 => exact ih r3 r2 (fun he => hne (by rw [he]))

/-- Frame for the single write pattern used by the link pass: setting
the property at key name on the entity at rw changes no other property
of any entity. -/
theorem setWriteFrame (h : Heap) (rw0 : Nat) (name : String) (v : JVal)
    (r : Nat) (k : String) (hcond : k ≠ name ∨ r ≠ rw0) :
    getA (getE (setE h rw0 (setA (getE h rw0) name v)) r) k = getA (getE h r) k := by
  by_cases hre : r = rw0
  · subst hre
    rcases hcond with hk | hr
    · by_cases hb : r < h.length
      · rw [getE_setE_self _ _ _ hb, getA_setA_ne _ _ _ _ hk]
      · rw [setE_oob _ _ _ (by omega)]
    · exact absurd rfl hr
  · rw [getE_setE_ne _ _ _ _ hre]

theorem length_pushProp (h : Heap) (r : Nat) (k : String) (v : Nat) :
    (pushProp h r k v).length = h.length := by
  unfold pushProp
  split
  · exact length_setE _ _ _
  · rfl

theorem pushProp_frame (h : Heap) (rw0 : Nat) (kw : String) (v : Nat)
    (r : Nat) (k : String) (hcond : k ≠ kw ∨ r ≠ rw0) :
    getA (getE (pushProp h rw0 kw v) r) k = getA (getE h r) k := by
  unfold pushProp
  split
  · exact setWriteFrame _ _ _ _ _ _ hcond
  · rfl

theorem pushProp_arr (h : Heap) (r : Nat) (k : String) (v : Nat) (xs : List Nat)
    (hx : getA (getE h r) k = some (.arr xs)) :
    getA (getE (pushProp h r k v) r) k = some (.arr (xs ++ [v])) := by
  have hb : r < h.length := by
    by_contra hb
    rw [getE_oob h r (by omega)] at hx
    simp [getA] at hx
  unfold pushProp
  rw [hx]
  rw [getE_setE_self _ _ _ hb, getA_setA_self]

/-- The property at (r, k) is an array. -/
def isArrProp (h : Heap) (r : Nat) (k : String) : Prop :=
  ∃ xs : List Nat, getA (getE h r) k = some (JVal.arr xs)

theorem pushProp_isArr (h : Heap) (rw0 : Nat) (kw : String) (v : Nat)
    (r : Nat) (k : String) (ha : isArrProp h r k) :
    isArrProp (pushProp h rw0 kw v) r k := by
  by_cases hcond : k ≠ kw ∨ r ≠ rw0
  · obtain ⟨xs, hxs⟩ := ha
    exact ⟨xs, by rw [pushProp_frame _ _ _ _ _ _ hcond, hxs]⟩
  · push_neg at hcond
    obtain ⟨hk, hr⟩ := hcond
    subst hk; subst hr
    obtain ⟨xs, hxs⟩ := ha
    exact ⟨xs ++ [v], pushProp_arr _ _ _ _ _ hxs⟩

/-! ### initRel lemmas -/

theorem length_initRel (name : String) :
    ∀ (m : JObj Nat) (h : Heap), (initRel name m h).length = h.length := by
  intro m
  induction m with
  | nil => intro h; rfl
  | cons p rest ih =>
      intro h
      obtain ⟨k0, r0⟩ := p
      simp only [initRel]
      rw [ih, length_setE]

theorem initRel_frame (name : String) :
    ∀ (m : JObj Nat) (h : Heap) (r : Nat) (k : String),
      (k ≠ name ∨ r ∉ m.map Prod.snd) →
      getA (getE (initRel name m h) r) k = getA (getE h r) k := by
  intro m
  induction m with
  | nil => intro h r k _; rfl
  | cons p rest ih =>
      intro h r k hcond
      obtain ⟨k0, r0⟩ := p
      simp only [initRel]
      have hcond' : k ≠ name ∨ r ∉ rest.map Prod.snd := by
        rcases hcond with hk | hr
        · exact Or.inl hk
        · exact Or.inr (fun hmem => hr (by simp [List.mem_cons]; right; simpa using hmem))
      rw [ih _ _ _ hcond']
      refine setWriteFrame _ _ _ _ _ _ ?_
      rcases hcond with hk | hr
      · exact Or.inl hk
      · exact Or.inr (fun he => hr (by simp [he]))

/-- initRel keeps an already-initialized empty array in place (any later
write by the same loop writes the same empty array). -/
theorem initRel_keeps (name : String) :
    ∀ (m : JObj Nat) (h : Heap) (r : Nat),
      getA (getE h r) name = some (.arr []) →
      getA (getE (initRel name m h) r) name = some (.arr []) := by
  intro m
  induction m with
  | nil => intro h r hr; exact hr
  | cons p rest ih =>
      intro h r hr
      obtain ⟨k0, r0⟩ := p
      simp only [initRel]
      refine ih _ _ ?_
      by_cases hre : r = r0
      · subst hre
        have hb : r < h.length := by
          by_contra hb
          rw [getE_oob h r (by omega)] at hr
          simp [getA] at hr
        rw [getE_setE_self _ _ _ hb, getA_setA_self]
      · rw [setWriteFrame _ _ _ _ _ _ (Or.inr hre)]
        exact hr

theorem initRel_post (name : String) :
    ∀ (m : JObj Nat) (h : Heap), (∀ p ∈ m, p.2 < h.length) →
      ∀ p ∈ m, getA (getE (initRel name m h) p.2) name = some (.arr []) := by
  intro m
  induction m with
  | nil => intro h _ p hp; simp at hp
  | cons q rest ih =>
      intro h hb p hp
      obtain ⟨k0, r0⟩ := q
      simp only [initRel]
      rcases List.mem_cons.1 hp with hp0 | hp1
      · subst hp0
        refine initRel_keeps name rest _ _ ?_
        have hr0 : r0 < h.length := by
          have := hb (k0, r0) (List.mem_cons_self _ _)
          simpa using this
        rw [getE_setE_self _ _ _ hr0, getA_setA_self]
      · refine ih _ ?_ p hp1
        intro q hq
        rw [length_setE]
        exact hb q (List.mem_cons_of_mem _ hq)

theorem initRel_isArr (name : String) :
    ∀ (m : JObj Nat) (h : Heap) (r : Nat) (k : String),
      isArrProp h r k → isArrProp (initRel name m h) r k := by
  intro m
  induction m with
  | nil => intro h r k ha; exact ha
  | cons p rest ih =>
      intro h r k ha
      obtain ⟨k0, r0⟩ := p
      simp only [initRel]
      refine ih _ _ _ ?_
      by_cases hcond : k ≠ name ∨ r ≠ r0
      · obtain ⟨xs, hxs⟩ := ha
        exact ⟨xs, by rw [setWriteFrame _ _ _ _ _ _ hcond, hxs]⟩
      · push_neg at hcond
        obtain ⟨hk, hr⟩ := hcond
        subst hk; subst hr
        obtain ⟨xs, hxs⟩ := ha
        have hb : r < h.length := by
          by_contra hb
          rw [getE_oob h r (by omega)] at hxs
          simp [getA] at hxs
        exact ⟨[], by rw [getE_setE_self _ _ _ hb, getA_setA_self]⟩

/-! ### applyEdges lemmas -/

theorem length_applyEdges (dst src : JObj Nat) (fwd rev : String) :
    ∀ (es : List (JVal × JVal)) (h : Heap),
      (applyEdges dst src fwd rev es h).length = h.length := by
  intro es
  induction es with
  | nil => intro h; rfl
  | cons e es ih =>
      intro h
      obtain ⟨t, sv⟩ := e
      simp only [applyEdges]
      rw [ih]
      by_cases hsv : sv.truthy
      · rw [if_pos hsv]
        rcases hdt : getA dst t.keyStr with _ | rT
        · rcases hst : getA src sv.keyStr with _ | rS <;> simp only [hdt, hst]
        · rcases hst : getA src sv.keyStr with _ | rS
          · simp only [hdt, hst]
          · simp only [hdt, hst]
            rw [length_pushProp, length_pushProp]
      · rw [if_neg hsv]

theorem applyEdges_skip (dst src : JObj Nat) (fwd rev : String) (t sv : JVal)
    (es : List (JVal × JVal)) (h : Heap)
    (hskip : sv.truthy = false ∨ getA dst t.keyStr = none ∨ getA src sv.keyStr = none) :
    applyEdges dst src fwd rev ((t, sv) :: es) h = applyEdges dst src fwd rev es h := by
  simp only [applyEdges]
  congr 1
  rcases hskip with hs | hs | hs
  · rw [if_neg (by simp [hs])]
  · by_cases hsv : sv.truthy
    · rw [if_pos hsv]
      rcases hst : getA src sv.keyStr with _ | rS <;> simp only [hs, hst]
    · rw [if_neg hsv]
  · by_cases hsv : sv.truthy
    · rw [if_pos hsv]
      rcases hdt : getA dst t.keyStr with _ | rT <;> simp only [hs, hdt]
    · rw [if_neg hsv]

theorem applyEdges_frame (dst src : JObj Nat) (fwd rev : String) :
    ∀ (es : List (JVal × JVal)) (h : Heap) (r : Nat) (k : String),
      (k = fwd → r ∉ src.map Prod.snd) → (k = rev → r ∉ dst.map Prod.snd) →
      getA (getE (applyEdges dst src fwd rev es h) r) k = getA (getE h r) k := by
  intro es
  induction es with
  | nil => intro h r k _ _; rfl
  | cons e es ih =>
      intro h r k hf hrv
      obtain ⟨t, sv⟩ := e
      simp only [applyEdges]
      rw [ih _ _ _ hf hrv]
      by_cases hsv : sv.truthy
      · rw [if_pos hsv]
        rcases hdt : getA dst t.keyStr with _ | rT
        · rcases hst : getA src sv.keyStr with _ | rS <;> simp only [hdt, hst]
        · rcases hst : getA src sv.keyStr with _ | rS
          · simp only [hdt, hst]
          · simp only [hdt, hst]
            have hrS : rS ∈ src.map Prod.snd :=
              List.mem_map_of_mem Prod.snd (getA_mem _ _ _ hst)
            have hrT : rT ∈ dst.map Prod.snd :=
              List.mem_map_of_mem Prod.snd (getA_mem _ _ _ hdt)
            have hc1 : k ≠ fwd ∨ r ≠ rS := by
              by_cases hk : k = fwd
              · exact Or.inr (fun he => (hf hk) (he ▸ hrS))
              · exact Or.inl hk
            have hc2 : k ≠ rev ∨ r ≠ rT := by
              by_cases hk : k = rev
              · exact Or.inr (fun he => (hrv hk) (he ▸ hrT))
              · exact Or.inl hk
            rw [pushProp_frame _ _ _ _ _ _ hc2, pushProp_frame _ _ _ _ _ _ hc1]
      · rw [if_neg hsv]

theorem applyEdges_isArr (dst src : JObj Nat) (fwd rev : String) :
    ∀ (es : List (JVal × JVal)) (h : Heap) (r : Nat) (k : String),
      isArrProp h r k → isArrProp (applyEdges dst src fwd rev es h) r k := by
  intro es
  induction es with
  | nil => intro h r k ha; exact ha
  | cons e es ih =>
      intro h r k ha
      obtain ⟨t, sv⟩ := e
      simp only [applyEdges]
      apply ih
      by_cases hsv : sv.truthy
      · rw [if_pos hsv]
        rcases hdt : getA dst t.keyStr with _ | rT
        · rcases hst : getA src sv.keyStr with _ | rS <;> simp only [hdt, hst] <;> exact ha
        · rcases hst : getA src sv.keyStr with _ | rS
          · simp only [hdt, hst]; exact ha
          · simp only [hdt, hst]
            exact pushProp_isArr _ _ _ _ _ _ (pushProp_isArr _ _ _ _ _ _ ha)
      · rw [if_neg hsv]; exact ha

theorem applyEdges_main (dst src : JObj Nat) (fwd rev : String) (hfr : fwd ≠ rev) :
    ∀ (es : List (JVal × JVal)) (h : Heap) (A B : Nat → List Nat),
      (∀ p ∈ src, p.2 < h.length ∧ getA (getE h p.2) fwd = some (.arr (A p.2))) →
      (∀ p ∈ dst, p.2 < h.length ∧ getA (getE h p.2) rev = some (.arr (B p.2))) →
      (∀ p ∈ src, getA (getE (applyEdges dst src fwd rev es h) p.2) fwd
          = some (.arr (A p.2 ++ fwdList dst src es p.2)))
      ∧ (∀ p ∈ dst, getA (getE (applyEdges dst src fwd rev es h) p.2) rev
          = some (.arr (B p.2 ++ revList dst src es p.2))) := by
  intro es
  induction es with
  | nil =>
      intro h A B hA hB
      constructor
      · intro p hp
        simp only [applyEdges, fwdList, List.append_nil]
        exact (hA p hp).2
      · intro p hp
        simp only [applyEdges, revList, List.append_nil]
        exact (hB p hp).2
  | cons e es ih =>
      intro h A B hA hB
      obtain ⟨t, sv⟩ := e
      by_cases hsv : sv.truthy
      · rcases hdt : getA dst t.keyStr with _ | rT
        · have hstep := applyEdges_skip dst src fwd rev t sv es h (Or.inr (Or.inl hdt))
          rw [hstep]
          have hmain := ih h A B hA hB
          constructor
          · intro p hp
            rw [hmain.1 p hp]
            rw [show fwdList dst src ((t, sv) :: es) p.2 = fwdList dst src es p.2 by
              simp only [fwdList]
              rw [if_pos hsv]
              rcases hst : getA src sv.keyStr with _ | rS <;> simp only [hdt, hst] <;> simp]
          · intro p hp
            rw [hmain.2 p hp]
            rw [show revList dst src ((t, sv) :: es) p.2 = revList dst src es p.2 by
              simp only [revList]
              rw [if_pos hsv]
              rcases hst : getA src sv.keyStr with _ | rS <;> simp only [hdt, hst] <;> simp]
        · rcases hst : getA src sv.keyStr with _ | rS
          · have hstep := applyEdges_skip dst src fwd rev t sv es h (Or.inr (Or.inr hst))
            rw [hstep]
            have hmain := ih h A B hA hB
            constructor
            · intro p hp
              rw [hmain.1 p hp]
              rw [show fwdList dst src ((t, sv) :: es) p.2 = fwdList dst src es p.2 by
                simp only [fwdList]
                rw [if_pos hsv]
                simp only [hdt, hst]
                simp]
            · intro p hp
              rw [hmain.2 p hp]
              rw [show revList dst src ((t, sv) :: es) p.2 = revList dst src es p.2 by
                simp only [revList]
                rw [if_pos hsv]
                simp only [hdt, hst]
                simp]
          · -- the edge resolves on both sides and both pushes happen
            have hstep : applyEdges dst src fwd rev ((t, sv) :: es) h
                = applyEdges dst src fwd rev es (pushProp (pushProp h rS fwd rT) rT rev rS) := by
              simp only [applyEdges]
              congr 1
              rw [if_pos hsv]
              simp only [hdt, hst]
            have hsrcmem : (sv.keyStr, rS) ∈ src := getA_mem _ _ _ hst
            have hdstmem : (t.keyStr, rT) ∈ dst := getA_mem _ _ _ hdt
            have hfr' : rev ≠ fwd := fun he => hfr he.symm
            have hA' : ∀ p ∈ src,
                p.2 < (pushProp (pushProp h rS fwd rT) rT rev rS).length
                ∧ getA (getE (pushProp (pushProp h rS fwd rT) rT rev rS) p.2) fwd
                    = some (.arr (if rS = p.2 then A p.2 ++ [rT] else A p.2)) := by
              intro p hp
              refine ⟨by rw [length_pushProp, length_pushProp]; exact (hA p hp).1, ?_⟩
              rw [pushProp_frame _ _ _ _ _ _ (Or.inl hfr)]
              by_cases hps : rS = p.2
              · rw [if_pos hps, ← hps]
                have hval : getA (getE h rS) fwd = some (JVal.arr (A rS)) :=
                  (hA _ hsrcmem).2
                exact pushProp_arr _ _ _ _ _ hval
              · rw [if_neg hps]
                rw [pushProp_frame _ _ _ _ _ _ (Or.inr (fun he => hps he.symm))]
                exact (hA p hp).2
            have hB' : ∀ p ∈ dst,
                p.2 < (pushProp (pushProp h rS fwd rT) rT rev rS).length
                ∧ getA (getE (pushProp (pushProp h rS fwd rT) rT rev rS) p.2) rev
                    = some (.arr (if rT = p.2 then B p.2 ++ [rS] else B p.2)) := by
              intro p hp
              refine ⟨by rw [length_pushProp, length_pushProp]; exact (hB p hp).1, ?_⟩
              by_cases hps : rT = p.2
              · rw [if_pos hps, ← hps]
                refine pushProp_arr _ _ _ _ _ ?_
                rw [pushProp_frame _ _ _ _ _ _ (Or.inl hfr')]
                exact (hB _ hdstmem).2
              · rw [if_neg hps]
                rw [pushProp_frame _ _ _ _ _ _ (Or.inr (fun he => hps he.symm))]
                rw [pushProp_frame _ _ _ _ _ _ (Or.inl hfr')]
                exact (hB p hp).2
            have hmain := ih (pushProp (pushProp h rS fwd rT) rT rev rS)
              (fun r => if rS = r then A r ++ [rT] else A r)
              (fun r => if rT = r then B r ++ [rS] else B r) hA' hB'
            constructor
            · intro p hp
              rw [hstep, hmain.1 p hp]
              simp only []
              rw [show fwdList dst src ((t, sv) :: es) p.2
                  = (if rS = p.2 then [rT] else []) ++ fwdList dst src es p.2 by
                simp only [fwdList]
                rw [if_pos hsv]
                simp only [hdt, hst]]
              by_cases hps : rS = p.2
              · rw [if_pos hps, if_pos hps, List.append_assoc]
              · rw [if_neg hps, if_neg hps, List.nil_append]
            · intro p hp
              rw [hstep, hmain.2 p hp]
              simp only []
              rw [show revList dst src ((t, sv) :: es) p.2
                  = (if rT = p.2 then [rS] else []) ++ revList dst src es p.2 by
                simp only [revList]
                rw [if_pos hsv]
                simp only [hdt, hst]]
              by_cases hps : rT = p.2
              · rw [if_pos hps, if_pos hps, List.append_assoc]
              · rw [if_neg hps, if_neg hps, List.nil_append]
      · have hstep := applyEdges_skip dst src fwd rev t sv es h (Or.inl (by simpa using hsv))
        rw [hstep]
        have hmain := ih h A B hA hB
        constructor
        · intro p hp
          rw [hmain.1 p hp]
          rw [show fwdList dst src ((t, sv) :: es) p.2 = fwdList dst src es p.2 by
            simp only [fwdList]
            rw [if_neg hsv]
            simp]
        · intro p hp
          rw [hmain.2 p hp]
          rw [show revList dst src ((t, sv) :: es) p.2 = revList dst src es p.2 by
            simp only [revList]
            rw [if_neg hsv]
            simp]

/-! ### linkStage and linkPassAux lemmas -/

theorem linkStage_trees (relationships : List String) (camelCase : Bool)
    (maps : List (JObj Nat)) (qi : Nat) (qr : StageResult) (trees : List JVal) (h : Heap) :
    (linkStage relationships camelCase maps qi qr trees h).1 = trees.set qi qr.tree := rfl

theorem length_linkStage_heap (relationships : List String) (camelCase : Bool)
    (maps : List (JObj Nat)) (qi : Nat) (qr : StageResult) (trees : List JVal) (h : Heap) :
    ((linkStage relationships camelCase maps qi qr trees h).2).length = h.length := by
  simp only [linkStage]
  split
  · rw [length_applyEdges, length_initRel, length_initRel]
  · rfl

theorem linkStage_heap_missing (relationships : List String) (camelCase : Bool)
    (maps : List (JObj Nat)) (qi : Nat) (qr : StageResult) (trees : List JVal) (h : Heap)
    (hmiss : mapAtI maps qr.join_index = none ∨ maps.get? qi = none) :
    (linkStage relationships camelCase maps qi qr trees h).2 = h := by
  simp only [linkStage]
  rcases hmiss with hs | hs
  · rw [hs]
  · rw [hs]
    rcases hsrc : mapAtI maps qr.join_index with _ | src <;> rfl

theorem linkStage_frame (relationships : List String) (camelCase : Bool)
    (maps : List (JObj Nat)) (qi : Nat) (qr : StageResult) (trees : List JVal) (h : Heap)
    (src dst : JObj Nat)
    (hsrc : mapAtI maps qr.join_index = some src)
    (hdst : maps.get? qi = some dst)
    (r : Nat) (k : String)
    (hf : k = relNameAt relationships camelCase qi → r ∉ src.map Prod.snd)
    (hrv : k = relNameAtI relationships camelCase qr.join_index → r ∉ dst.map Prod.snd) :
    getA (getE ((linkStage relationships camelCase maps qi qr trees h).2) r) k
      = getA (getE h r) k := by
  simp only [linkStage, hsrc, hdst]
  rw [applyEdges_frame _ _ _ _ _ _ _ _ hf hrv]
  rw [initRel_frame _ _ _ _ _ (by
    by_cases hk : k = relNameAtI relationships camelCase qr.join_index
    · exact Or.inr (hrv hk)
    · exact Or.inl hk)]
  rw [initRel_frame _ _ _ _ _ (by
    by_cases hk : k = relNameAt relationships camelCase qi
    · exact Or.inr (hf hk)
    · exact Or.inl hk)]

theorem linkStage_isArr (relationships : List String) (camelCase : Bool)
    (maps : List (JObj Nat)) (qi : Nat) (qr : StageResult) (trees : List JVal) (h : Heap)
    (r : Nat) (k : String) (ha : isArrProp h r k) :
    isArrProp ((linkStage relationships camelCase maps qi qr trees h).2) r k := by
  simp only [linkStage]
  split
  · exact applyEdges_isArr _ _ _ _ _ _ _ _
      (initRel_isArr _ _ _ _ _ (initRel_isArr _ _ _ _ _ ha))
  · exact ha

theorem linkPassAux_append (relationships : List String) (camelCase : Bool)
    (maps : List (JObj Nat)) :
    ∀ (rs1 rs2 : List StageResult) (qi : Nat) (st : List JVal × Heap),
      linkPassAux relationships camelCase maps (rs1 ++ rs2) qi st
        = linkPassAux relationships camelCase maps rs2 (qi + rs1.length)
            (linkPassAux relationships camelCase maps rs1 qi st) := by
  intro rs1
  induction rs1 with
  | nil =>
      intro rs2 qi st
      simp [linkPassAux]
  | cons qr rest ih =>
      intro rs2 qi st
      simp only [List.cons_append, linkPassAux, List.length_cons, List.append_eq]
      rw [ih rs2 (qi + 1) _]
      rw [show qi + 1 + rest.length = qi + (rest.length + 1) by omega]

theorem length_linkPassAux_heap (relationships : List String) (camelCase : Bool)
    (maps : List (JObj Nat)) :
    ∀ (rs : List StageResult) (qi : Nat) (st : List JVal × Heap),
      ((linkPassAux relationships camelCase maps rs qi st).2).length = (st.2).length := by
  intro rs
  induction rs with
  | nil => intro qi st; rfl
  | cons qr rest ih =>
      intro qi st
      simp only [linkPassAux]
      rw [ih]
      exact length_linkStage_heap _ _ _ _ _ _ _

theorem get?_set_self' (l : List JVal) (i : Nat) (a : JVal) (h : i < l.length) :
    (l.set i a).get? i = some a := by
  induction l generalizing i with
  | nil => simp at h
  | cons x t ih =>
      cases i with
      | zero => rfl
      | succ i' => exact ih i' (by simpa using h)

theorem get?_set_ne' (l : List JVal) (i j : Nat) (a : JVal) (h : j ≠ i) :
    (l.set i a).get? j = l.get? j := by
  induction l generalizing i j with
  | nil => rfl
  | cons x t ih =>
      cases i with
      | zero =>
          cases j with
          | zero => exact absurd rfl h
          | succ j' => rfl
      | succ i' =>
          cases j with
          | zero => rfl
          | succ j' => exact ih i' j' (fun he => h (by rw [he]))

theorem linkPassAux_trees_preserve (relationships : List String) (camelCase : Bool)
    (maps : List (JObj Nat)) :
    ∀ (rs : List StageResult) (qi : Nat) (st : List JVal × Heap) (ix : Nat), ix < qi →
      ((linkPassAux relationships camelCase maps rs qi st).1).get? ix = (st.1).get? ix := by
  intro rs
  induction rs with
  | nil => intro qi st ix _; rfl
  | cons qr rest ih =>
      intro qi st ix hix
      simp only [linkPassAux]
      rw [ih (qi + 1) _ ix (by omega)]
      rw [linkStage_trees]
      exact get?_set_ne' _ _ _ _ (by omega)

theorem linkPassAux_trees_set (relationships : List String) (camelCase : Bool)
    (maps : List (JObj Nat)) :
    ∀ (rs : List StageResult) (qi : Nat) (trees : List JVal) (h : Heap) (ix : Nat)
      (qr : StageResult), qi ≤ ix → rs.get? (ix - qi) = some qr → ix < trees.length →
      ((linkPassAux relationships camelCase maps rs qi (trees, h)).1).get? ix
        = some qr.tree := by
  intro rs
  induction rs with
  | nil =>
      intro qi trees h ix qr _ hget _
      simp at hget
  | cons qr0 rest ih =>
      intro qi trees h ix qr hle hget hlen
      simp only [linkPassAux]
      by_cases hix : ix = qi
      · subst hix
        rw [show ix - ix = 0 by omega] at hget
        have hqr : qr0 = qr := Option.some.inj hget
        subst hqr
        have hpres := linkPassAux_trees_preserve relationships camelCase maps rest (ix + 1)
          (linkStage relationships camelCase maps ix qr0 trees h) ix (by omega)
        rw [hpres, linkStage_trees]
        exact get?_set_self' _ _ _ hlen
      · have hlt : qi < ix := by omega
        have hget' : rest.get? (ix - (qi + 1)) = some qr := by
          rw [show ix - (qi + 1) = ix - qi - 1 by omega]
          rcases hd : ix - qi with _ | d
          · omega
          · rw [hd] at hget
            simpa using hget
        have hst : (linkStage relationships camelCase maps qi qr0 trees h).1.length
            = trees.length := by
          rw [linkStage_trees]
          exact List.length_set _ _ _
        have := ih (qi + 1) (linkStage relationships camelCase maps qi qr0 trees h).1
          (linkStage relationships camelCase maps qi qr0 trees h).2 ix qr (by omega) hget'
          (by rw [hst]; exact hlen)
        exact this

/-- Claim C4: during the link pass, a join-edge pair whose sourceId is
falsy, or whose targetId or sourceId does not resolve in the
corresponding stage map, contributes nothing: processing the edge list
with that edge is identical to processing it without the edge, so
neither the forward nor the reverse array of any entity is modified,
and no error is raised (the loop is total). -/
theorem claim_C4 (dst src : JObj Nat) (fwd rev : String) (t sv : JVal)
    (es : List (JVal × JVal)) (h : Heap)
    (hskip : sv.truthy = false ∨ getA dst t.keyStr = none ∨ getA src sv.keyStr = none) :
    applyEdges dst src fwd rev ((t, sv) :: es) h = applyEdges dst src fwd rev es h :=
  applyEdges_skip dst src fwd rev t sv es h hskip

/-- Witness for C4 at an outer-join edge with a null sourceId. -/
theorem claim_C4_witness :
    applyEdges [("1", 0)] [("2", 1)] "f" "r" [(JVal.num 1, JVal.null)] [[], []]
      = applyEdges [("1", 0)] [("2", 1)] "f" "r" [] [[], []] :=
  claim_C4 [("1", 0)] [("2", 1)] "f" "r" (JVal.num 1) JVal.null [] [[], []]
    (Or.inl (by decide))

/-! ### materializeAll lemmas -/

theorem materializeAll_len_maps (results : List StageResult)
    (ctors : Option (List (Option (Props → Props))))
    (ex : Option (List (Option (JObj Nat)))) (camelCase : Bool) :
    ∀ (datas : List QueryData) (qi : Nat) (h : Heap),
      ((materializeAll results ctors ex camelCase datas qi h).1).length = datas.length := by
  intro datas
  induction datas with
  | nil => intro qi h; rfl
  | cons qd rest ih =>
      intro qi h
      simp only [materializeAll, List.length_cons]
      rw [ih]

theorem materializeAll_trees (results : List StageResult)
    (ctors : Option (List (Option (Props → Props))))
    (ex : Option (List (Option (JObj Nat)))) (camelCase : Bool) :
    ∀ (datas : List QueryData) (qi : Nat) (h : Heap),
      (materializeAll results ctors ex camelCase datas qi h).2.1
        = List.replicate datas.length JVal.null := by
  intro datas
  induction datas with
  | nil => intro qi h; rfl
  | cons qd rest ih =>
      intro qi h
      simp only [materializeAll, List.length_cons, List.replicate_succ]
      rw [ih]

theorem materializeAll_heap_len (results : List StageResult)
    (ctors : Option (List (Option (Props → Props))))
    (ex : Option (List (Option (JObj Nat)))) (camelCase : Bool) :
    ∀ (datas : List QueryData) (qi : Nat) (h : Heap),
      ((materializeAll results ctors ex camelCase datas qi h).2.2).length
        = h.length + (stageSizes results ctors camelCase qi datas).sum := by
  intro datas
  induction datas with
  | nil => intro qi h; simp [materializeAll, stageSizes]
  | cons qd rest ih =>
      intro qi h
      simp only [materializeAll, stageSizes, List.sum_cons]
      rw [ih]
      rw [List.length_append]
      rw [show _parseObjects qd (results.getD qi default).model (ctorAt ctors qi) camelCase
          = stageObjs results ctors camelCase qi qd from rfl]
      omega

theorem stageSizes_get? (results : List StageResult)
    (ctors : Option (List (Option (Props → Props)))) (camelCase : Bool) :
    ∀ (datas : List QueryData) (qi j : Nat) (qd : QueryData), datas.get? j = some qd →
      (stageSizes results ctors camelCase qi datas).get? j
        = some (stageObjs results ctors camelCase (qi + j) qd).length := by
  intro datas
  induction datas with
  | nil => intro qi j qd hget; simp at hget
  | cons qd0 rest ih =>
      intro qi j qd hget
      cases j with
      | zero =>
          have : qd0 = qd := Option.some.inj hget
          subst this
          simp [stageSizes]
      | succ j' =>
          simp only [List.get?_cons_succ] at hget
          simp only [stageSizes, List.get?_cons_succ]
          rw [ih (qi + 1) j' qd hget]
          rw [show qi + 1 + j' = qi + (j' + 1) by omega]

theorem materializeAll_maps_get? (results : List StageResult)
    (ctors : Option (List (Option (Props → Props))))
    (ex : Option (List (Option (JObj Nat)))) (camelCase : Bool) :
    ∀ (datas : List QueryData) (qi : Nat) (h : Heap) (j : Nat) (qd : QueryData),
      datas.get? j = some qd →
      ((materializeAll results ctors ex camelCase datas qi h).1).get? j
        = some (mkStageMap (stageObjs results ctors camelCase (qi + j) qd)
            (exAt ex (qi + j))
            (h.length + ((stageSizes results ctors camelCase qi datas).take j).sum)) := by
  intro datas
  induction datas with
  | nil => intro qi h j qd hget; simp at hget
  | cons qd0 rest ih =>
      intro qi h j qd hget
      cases j with
      | zero =>
          have : qd0 = qd := Option.some.inj hget
          subst this
          simp only [materializeAll, stageSizes, List.get?_cons_zero, List.take_zero,
            List.sum_nil, Nat.add_zero, Option.some.injEq]
          rfl
      | succ j' =>
          simp only [List.get?_cons_succ] at hget
          simp only [materializeAll, List.get?_cons_succ]
          rw [ih (qi + 1) _ j' qd hget]
          rw [List.length_append]
          rw [show _parseObjects qd0 (results.getD qi default).model (ctorAt ctors qi) camelCase
              = stageObjs results ctors camelCase qi qd0 from rfl]
          rw [show qi + 1 + j' = qi + (j' + 1) by omega]
          rw [show (stageSizes results ctors camelCase qi (qd0 :: rest)).take (j' + 1)
              = (stageObjs results ctors camelCase qi qd0).length
                :: (stageSizes results ctors camelCase (qi + 1) rest).take j' from rfl]
          rw [List.sum_cons]
          rw [show h.length + (stageObjs results ctors camelCase qi qd0).length
                + ((stageSizes results ctors camelCase (qi + 1) rest).take j').sum
              = h.length + ((stageObjs results ctors camelCase qi qd0).length
                + ((stageSizes results ctors camelCase (qi + 1) rest).take j').sum) by omega]

theorem mkStageMapAux_range :
    ∀ (objs : List Props) (r : Nat) (acc : JObj Nat) (p : String × Nat),
      p ∈ mkStageMapAux none objs r acc →
      (r ≤ p.2 ∧ p.2 < r + objs.length) ∨ p ∈ acc := by
  intro objs
  induction objs with
  | nil => intro r acc p hp; exact Or.inr hp
  | cons o os ih =>
      intro r acc p hp
      simp only [mkStageMapAux] at hp
      rcases ih (r + 1) _ p hp with h | h
      · exact Or.inl ⟨by omega, by simp only [List.length_cons]; omega⟩
      · rcases mem_setA _ _ _ _ h with h' | h'
        · left
          rw [h']
          simp only [exRefFor, Option.getD_none]
          constructor
          · omega
          · simp only [List.length_cons]; omega
        · exact Or.inr h'

theorem mkStageMap_range (objs : List Props) (base : Nat) (p : String × Nat)
    (hp : p ∈ mkStageMap objs none base) :
    base ≤ p.2 ∧ p.2 < base + objs.length := by
  rcases mkStageMapAux_range objs base [] p hp with h | h
  · exact h
  · simp at h

theorem take_sum_mono : ∀ (s : List Nat) (a b : Nat), a ≤ b →
    (s.take a).sum ≤ (s.take b).sum := by
  intro s
  induction s with
  | nil => intro a b _; simp
  | cons x t ih =>
      intro a b hab
      cases a with
      | zero => simp
      | succ a' =>
          cases b with
          | zero => omega
          | succ b' =>
              simp only [List.take_succ_cons, List.sum_cons]
              have := ih a' b' (by omega)
              omega

theorem take_sum_le_sum : ∀ (s : List Nat) (a : Nat), (s.take a).sum ≤ s.sum := by
  intro s a
  by_cases hc : a ≤ s.length
  · calc (s.take a).sum ≤ (s.take s.length).sum := take_sum_mono s a s.length hc
      _ = s.sum := by rw [List.take_length s]
  · rw [List.take_of_length_le (by omega)]

theorem take_succ_sum : ∀ (s : List Nat) (j v : Nat), s.get? j = some v →
    (s.take (j + 1)).sum = (s.take j).sum + v := by
  intro s
  induction s with
  | nil => intro j v hget; simp at hget
  | cons x t ih =>
      intro j v hget
      cases j with
      | zero =>
          have : x = v := Option.some.inj hget
          subst this
          simp
      | succ j' =>
          simp only [List.get?_cons_succ] at hget
          simp only [List.take_succ_cons, List.sum_cons]
          rw [ih j' v hget]
          omega

/-! ### Claim C7 -/

/-- Counterexample to claim C7: the link loop of parse iterates over all
stages including stage 0 and assigns trees[queryIndex] =
results[queryIndex].tree unconditionally, so a response whose first
stage carries a non-null tree yields joinTrees[0] equal to that tree,
not null, contradicting the claim that joinTrees[0] is always null. -/
theorem claim_C7_counterexample :
    ((parse ["m"] none
        (Response.mk [StageResult.mk "M" (-1) (JVal.num 7) []]
          (some [QueryData.mk ["id"] (some [[JVal.num 1]]) []]))
        none false []).2.1) = [JVal.num 7]
    ∧ JVal.num 7 ≠ JVal.null := by
  constructor
  · decide
  · decide

/-- Claim C7 as amended: joinTrees[i] is initialized to null during the
materialize pass and then set to results[i].tree by the link pass for
every stage i below the number of data stages, stage 0 included; hence
joinTrees[0] equals results[0].tree, which need not be null. -/
theorem claim_C7_amended (relationships : List String)
    (ctors : Option (List (Option (Props → Props)))) (resp : Response)
    (ex : Option (List (Option (JObj Nat)))) (camelCase : Bool) (h0 : Heap)
    (datas : List QueryData) (i : Nat) (qr : StageResult)
    (hd : resp.data = some datas)
    (hi : i < datas.length)
    (hqr : resp.results.get? i = some qr) :
    ((parse relationships ctors resp ex camelCase h0).2.1).get? i = some qr.tree := by
  simp only [parse, hd]
  refine linkPassAux_trees_set relationships camelCase _ resp.results 0 _ _ i qr
    (by omega) ?_ ?_
  · rw [show i - 0 = i by omega]
    exact hqr
  · rw [materializeAll_trees, List.length_replicate]
    exact hi

/-- Witness for the amended C7 at a one-stage response with a non-null
tree. -/
theorem claim_C7_witness :
    ((parse ["m"] none
        (Response.mk [StageResult.mk "M" (-1) (JVal.num 7) []]
          (some [QueryData.mk ["id"] (some [[JVal.num 1]]) []]))
        none false []).2.1).get? 0 = some (JVal.num 7) :=
  claim_C7_amended ["m"] none _ none false []
    [QueryData.mk ["id"] (some [[JVal.num 1]]) []] 0
    (StageResult.mk "M" (-1) (JVal.num 7) []) rfl (by decide) rfl

/-! ### Stage map reference ranges and results-list decomposition -/

theorem matAll_ref_range (results : List StageResult)
    (ctors : Option (List (Option (Props → Props)))) (camelCase : Bool)
    (datas : List QueryData) (h0 : Heap) (j : Nat) (m : JObj Nat) (qd : QueryData)
    (hqd : datas.get? j = some qd)
    (hm : ((materializeAll results ctors none camelCase datas 0 h0).1).get? j = some m) :
    ∀ p ∈ m,
      h0.length + ((stageSizes results ctors camelCase 0 datas).take j).sum ≤ p.2
      ∧ p.2 < h0.length + ((stageSizes results ctors camelCase 0 datas).take (j + 1)).sum := by
  rw [materializeAll_maps_get? results ctors none camelCase datas 0 h0 j qd hqd] at hm
  have hmm := Option.some.inj hm
  intro p hp
  rw [← hmm] at hp
  rw [show exAt (none : Option (List (Option (JObj Nat)))) (0 + j) = none from rfl] at hp
  have hrange := mkStageMap_range _ _ _ hp
  have hsz : (stageSizes results ctors camelCase 0 datas).get? j
      = some (stageObjs results ctors camelCase (0 + j) qd).length :=
    stageSizes_get? results ctors camelCase datas 0 j qd hqd
  have hsum := take_succ_sum (stageSizes results ctors camelCase 0 datas) j _ hsz
  omega

theorem matAll_ref_valid (results : List StageResult)
    (ctors : Option (List (Option (Props → Props)))) (camelCase : Bool)
    (datas : List QueryData) (h0 : Heap) (j : Nat) (m : JObj Nat) (qd : QueryData)
    (hqd : datas.get? j = some qd)
    (hm : ((materializeAll results ctors none camelCase datas 0 h0).1).get? j = some m) :
    ∀ p ∈ m, p.2 < ((materializeAll results ctors none camelCase datas 0 h0).2.2).length := by
  intro p hp
  have hrange := matAll_ref_range results ctors camelCase datas h0 j m qd hqd hm p hp
  have hle := take_sum_le_sum (stageSizes results ctors camelCase 0 datas) (j + 1)
  rw [materializeAll_heap_len]
  omega

theorem matAll_ref_disjoint (results : List StageResult)
    (ctors : Option (List (Option (Props → Props)))) (camelCase : Bool)
    (datas : List QueryData) (h0 : Heap) (j1 j2 : Nat) (m1 m2 : JObj Nat)
    (qd1 qd2 : QueryData)
    (hqd1 : datas.get? j1 = some qd1) (hqd2 : datas.get? j2 = some qd2)
    (hm1 : ((materializeAll results ctors none camelCase datas 0 h0).1).get? j1 = some m1)
    (hm2 : ((materializeAll results ctors none camelCase datas 0 h0).1).get? j2 = some m2)
    (hne : j1 ≠ j2) :
    ∀ p1 ∈ m1, ∀ p2 ∈ m2, p1.2 ≠ p2.2 := by
  intro p1 hp1 p2 hp2
  have h1 := matAll_ref_range results ctors camelCase datas h0 j1 m1 qd1 hqd1 hm1 p1 hp1
  have h2 := matAll_ref_range results ctors camelCase datas h0 j2 m2 qd2 hqd2 hm2 p2 hp2
  rcases Nat.lt_or_ge j1 j2 with hlt | hge
  · have hmono := take_sum_mono (stageSizes results ctors camelCase 0 datas) (j1 + 1) j2
      (by omega)
    omega
  · have hlt : j2 < j1 := by omega
    have hmono := take_sum_mono (stageSizes results ctors camelCase 0 datas) (j2 + 1) j1
      (by omega)
    omega

theorem linkPassAux_isArr (relationships : List String) (camelCase : Bool)
    (maps : List (JObj Nat)) :
    ∀ (rs : List StageResult) (qi : Nat) (st : List JVal × Heap) (r : Nat) (k : String),
      isArrProp st.2 r k →
      isArrProp ((linkPassAux relationships camelCase maps rs qi st).2) r k := by
  intro rs
  induction rs with
  | nil => intro qi st r k ha; exact ha
  | cons qr rest ih =>
      intro qi st r k ha
      simp only [linkPassAux]
      exact ih (qi + 1) _ r k (linkStage_isArr _ _ _ _ _ _ _ _ _ ha)

theorem results_split (rs : List StageResult) (i : Nat) (qr : StageResult)
    (hqr : rs.get? i = some qr) :
    rs = rs.take i ++ qr :: rs.drop (i + 1) ∧ (rs.take i).length = i := by
  obtain ⟨hlt, hget⟩ := List.get?_eq_some.1 hqr
  constructor
  · conv_lhs => rw [← List.take_append_drop i rs]
    congr 1
    rw [List.drop_eq_get_cons hlt, hget]
  · rw [List.length_take]
    omega

theorem linkPassAux_split (relationships : List String) (camelCase : Bool)
    (maps : List (JObj Nat)) (rs : List StageResult) (i : Nat) (qr : StageResult)
    (st : List JVal × Heap) (hqr : rs.get? i = some qr) :
    linkPassAux relationships camelCase maps rs 0 st
      = linkPassAux relationships camelCase maps (rs.drop (i + 1)) (i + 1)
          (linkStage relationships camelCase maps i qr
            ((linkPassAux relationships camelCase maps (rs.take i) 0 st).1)
            ((linkPassAux relationships camelCase maps (rs.take i) 0 st).2)) := by
  obtain ⟨hsplit, hlen⟩ := results_split rs i qr hqr
  conv_lhs => rw [hsplit]
  rw [linkPassAux_append, hlen]
  simp only [linkPassAux, Nat.zero_add]

/-- Claim C2: for a join between stage i and its join-source stage, when
both stage maps exist the builder first stores a fresh empty array under
the forward name on every entity of the source stage's map and under the
reverse name on every entity of stage i's map, before any edge is
applied (first conjunct, about the initialization loop itself); and
after the whole build every entity of both maps still has the
relationship property present as an array, even with zero related
entities (remaining conjuncts, about the final heap of parse). Existing
entity maps are not supplied here, so every map reference is a valid
fresh heap reference. -/
theorem claim_C2 (relationships : List String)
    (ctors : Option (List (Option (Props → Props)))) (resp : Response)
    (camelCase : Bool) (h0 : Heap) (datas : List QueryData) (i : Nat) (qr : StageResult)
    (src dst : JObj Nat)
    (hd : resp.data = some datas)
    (hqr : resp.results.get? i = some qr)
    (hsrc : mapAtI (parse relationships ctors resp none camelCase h0).1 qr.join_index
      = some src)
    (hdst : (parse relationships ctors resp none camelCase h0).1.get? i = some dst) :
    (∀ (name : String) (m : JObj Nat) (h : Heap), (∀ p ∈ m, p.2 < h.length) →
      ∀ p ∈ m, getA (getE (initRel name m h) p.2) name = some (.arr []))
    ∧ (∀ p ∈ src,
        isArrProp (parse relationships ctors resp none camelCase h0).2.2 p.2
          (relNameAt relationships camelCase i))
    ∧ (∀ p ∈ dst,
        isArrProp (parse relationships ctors resp none camelCase h0).2.2 p.2
          (relNameAtI relationships camelCase qr.join_index)) := by
  have hmapsEq : (parse relationships ctors resp none camelCase h0).1
      = (materializeAll resp.results ctors none camelCase datas 0 h0).1 := by
    simp only [parse, hd]
  rw [hmapsEq] at hsrc hdst
  -- the join index is in range, and the source map address
  have hjnn : 0 ≤ qr.join_index := by
    by_contra hneg
    rw [show mapAtI (materializeAll resp.results ctors none camelCase datas 0 h0).1
        qr.join_index = none by simp [mapAtI]; omega] at hsrc
    simp at hsrc
  have hsrc' : ((materializeAll resp.results ctors none camelCase datas 0 h0).1).get?
      qr.join_index.toNat = some src := by
    rw [mapAtI, if_pos hjnn] at hsrc
    exact hsrc
  -- stage indices are below the number of data stages
  have hslt : qr.join_index.toNat < datas.length := by
    obtain ⟨hl, _⟩ := List.get?_eq_some.1 hsrc'
    rw [materializeAll_len_maps] at hl
    exact hl
  have hilt : i < datas.length := by
    obtain ⟨hl, _⟩ := List.get?_eq_some.1 hdst
    rw [materializeAll_len_maps] at hl
    exact hl
  obtain ⟨qds, hqds⟩ : ∃ qd, datas.get? qr.join_index.toNat = some qd := by
    rcases hq : datas.get? qr.join_index.toNat with _ | qd
    · have := List.get?_eq_none.1 hq
      omega
    · exact ⟨qd, rfl⟩
  obtain ⟨qdi, hqdi⟩ : ∃ qd, datas.get? i = some qd := by
    rcases hq : datas.get? i with _ | qd
    · have := List.get?_eq_none.1 hq
      omega
    · exact ⟨qd, rfl⟩
  -- validity of every reference of the two maps in the materialized heap
  have hbsrc := matAll_ref_valid resp.results ctors camelCase datas h0 _ src qds hqds hsrc'
  have hbdst := matAll_ref_valid resp.results ctors camelCase datas h0 i dst qdi hqdi hdst
  -- decompose the link pass around stage i
  have hfinal : (parse relationships ctors resp none camelCase h0).2.2
      = (linkPassAux relationships camelCase
          (materializeAll resp.results ctors none camelCase datas 0 h0).1
          (resp.results.drop (i + 1)) (i + 1)
          (linkStage relationships camelCase
            (materializeAll resp.results ctors none camelCase datas 0 h0).1 i qr
            ((linkPassAux relationships camelCase
              (materializeAll resp.results ctors none camelCase datas 0 h0).1
              (resp.results.take i) 0
              ((materializeAll resp.results ctors none camelCase datas 0 h0).2.1,
               (materializeAll resp.results ctors none camelCase datas 0 h0).2.2)).1)
            ((linkPassAux relationships camelCase
              (materializeAll resp.results ctors none camelCase datas 0 h0).1
              (resp.results.take i) 0
              ((materializeAll resp.results ctors none camelCase datas 0 h0).2.1,
               (materializeAll resp.results ctors none camelCase datas 0 h0).2.2)).2))).2 := by
    simp only [parse, hd]
    rw [linkPassAux_split relationships camelCase _ resp.results i qr _ hqr]
  have hmidlen : ((linkPassAux relationships camelCase
      (materializeAll resp.results ctors none camelCase datas 0 h0).1
      (resp.results.take i) 0
      ((materializeAll resp.results ctors none camelCase datas 0 h0).2.1,
       (materializeAll resp.results ctors none camelCase datas 0 h0).2.2)).2).length
      = ((materializeAll resp.results ctors none camelCase datas 0 h0).2.2).length :=
    length_linkPassAux_heap _ _ _ _ _ _
  have hstage : (linkStage relationships camelCase
      (materializeAll resp.results ctors none camelCase datas 0 h0).1 i qr
      ((linkPassAux relationships camelCase
        (materializeAll resp.results ctors none camelCase datas 0 h0).1
        (resp.results.take i) 0
        ((materializeAll resp.results ctors none camelCase datas 0 h0).2.1,
         (materializeAll resp.results ctors none camelCase datas 0 h0).2.2)).1)
      ((linkPassAux relationships camelCase
        (materializeAll resp.results ctors none camelCase datas 0 h0).1
        (resp.results.take i) 0
        ((materializeAll resp.results ctors none camelCase datas 0 h0).2.1,
         (materializeAll resp.results ctors none camelCase datas 0 h0).2.2)).2)).2
      = applyEdges dst src (relNameAt relationships camelCase i)
          (relNameAtI relationships camelCase qr.join_index) qr.objects
          (initRel (relNameAtI relationships camelCase qr.join_index) dst
            (initRel (relNameAt relationships camelCase i) src
              ((linkPassAux relationships camelCase
                (materializeAll resp.results ctors none camelCase datas 0 h0).1
                (resp.results.take i) 0
                ((materializeAll resp.results ctors none camelCase datas 0 h0).2.1,
                 (materializeAll resp.results ctors none camelCase datas 0 h0).2.2)).2))) := by
    simp only [linkStage, hsrc, hdst]
  refine ⟨fun name m h hb p hp => initRel_post name m h hb p hp, ?_, ?_⟩
  · intro p hp
    rw [hfinal]
    refine linkPassAux_isArr _ _ _ _ _ _ _ _ ?_
    rw [hstage]
    refine applyEdges_isArr _ _ _ _ _ _ _ _ ?_
    refine initRel_isArr _ _ _ _ _ ?_
    refine ⟨[], ?_⟩
    refine initRel_post _ src _ ?_ p hp
    intro q hq
    rw [hmidlen]
    exact hbsrc q hq
  · intro p hp
    rw [hfinal]
    refine linkPassAux_isArr _ _ _ _ _ _ _ _ ?_
    rw [hstage]
    refine applyEdges_isArr _ _ _ _ _ _ _ _ ?_
    refine ⟨[], ?_⟩
    refine initRel_post _ dst _ ?_ p hp
    intro q hq
    rw [length_initRel, hmidlen]
    exact hbdst q hq

/-- Witness for C2: the experiment entity of a two-stage response gets
its forward relationship array even before any outer machinery runs. -/
theorem claim_C2_witness :
    isArrProp (parse ["experiments", "reactions"] none
        (Response.mk
          [StageResult.mk "Experiment" (-1) JVal.null [],
           StageResult.mk "Reaction" 0 JVal.null
             [(JVal.num 23063, JVal.num 403), (JVal.num 23064, JVal.num 403)]]
          (some
            [QueryData.mk ["id"] (some [[JVal.num 403]]) [],
             QueryData.mk ["id"] (some [[JVal.num 23063], [JVal.num 23064]]) []]))
        none false []).2.2 0
      (relNameAt ["experiments", "reactions"] false 1) :=
  (claim_C2 ["experiments", "reactions"] none
    (Response.mk
      [StageResult.mk "Experiment" (-1) JVal.null [],
       StageResult.mk "Reaction" 0 JVal.null
         [(JVal.num 23063, JVal.num 403), (JVal.num 23064, JVal.num 403)]]
      (some
        [QueryData.mk ["id"] (some [[JVal.num 403]]) [],
         QueryData.mk ["id"] (some [[JVal.num 23063], [JVal.num 23064]]) []]))
    false []
    [QueryData.mk ["id"] (some [[JVal.num 403]]) [],
     QueryData.mk ["id"] (some [[JVal.num 23063], [JVal.num 23064]]) []]
    1
    (StageResult.mk "Reaction" 0 JVal.null
      [(JVal.num 23063, JVal.num 403), (JVal.num 23064, JVal.num 403)])
    [("403", 0)] [("23063", 1), ("23064", 2)]
    rfl rfl (by decide) (by decide)).2.1 ("403", 0) (by decide)

/-! ### Stage map characterization and claim C3 -/

theorem mkStageMapAux_getA (exm : Option (JObj Nat)) (k : String) :
    ∀ (objs : List Props) (r : Nat) (acc : JObj Nat),
      getA (mkStageMapAux exm objs r acc) k
        = match lastIdxWith objs k with
          | some j => some ((exRefFor exm k).getD (r + j))
          | none => getA acc k := by
  intro objs
  induction objs with
  | nil => intro r acc; rfl
  | cons o os ih =>
      intro r acc
      simp only [mkStageMapAux]
      rw [ih (r + 1) _]
      simp only [lastIdxWith]
      rcases hl : lastIdxWith os k with _ | j
      · simp only [hl]
        by_cases hk : idKeyOf o = k
        · rw [if_pos hk, hk, getA_setA_self]
          show some ((exRefFor exm k).getD r) = some ((exRefFor exm k).getD (r + 0))
          rw [show r + 0 = r by omega]
        · rw [if_neg hk]
          rw [getA_setA_ne _ _ _ _ (fun he => hk he.symm)]
      · simp only [hl]
        show some ((exRefFor exm k).getD (r + 1 + j))
          = some ((exRefFor exm k).getD (r + (j + 1)))
        rw [show r + 1 + j = r + (j + 1) by omega]

theorem mkStageMapAux_nodup (exm : Option (JObj Nat)) :
    ∀ (objs : List Props) (r : Nat) (acc : JObj Nat),
      (keysOf acc).Nodup → (keysOf (mkStageMapAux exm objs r acc)).Nodup := by
  intro objs
  induction objs with
  | nil => intro r acc h; exact h
  | cons o os ih =>
      intro r acc h
      simp only [mkStageMapAux]
      exact ih (r + 1) _ (nodup_keysOf_setA _ _ _ h)

/-- Claim C3: each built stage map holds at most one entity per
identifier key (its key list has no duplicates), and its lookup is fully
characterized: an identifier key resolves to nothing when no
materialized row of the stage has it; when rows have it, the last such
row wins, and the stored reference is the caller-supplied existing
entity whenever the stage's existing-entity map contains the key (so
the map entry is reference-equal to the existing entity, never to a
freshly materialized one), and otherwise the fresh entity materialized
from that last row. The maps returned by parse are built in the
materialize pass and never rebound by the link pass, which only mutates
the entities they reference. -/
theorem claim_C3 (relationships : List String)
    (ctors : Option (List (Option (Props → Props)))) (resp : Response)
    (ex : Option (List (Option (JObj Nat)))) (camelCase : Bool) (h0 : Heap)
    (datas : List QueryData) (i : Nat) (qd : QueryData) (m : JObj Nat)
    (hd : resp.data = some datas)
    (hqd : datas.get? i = some qd)
    (hm : (parse relationships ctors resp ex camelCase h0).1.get? i = some m) :
    (∀ k : String, getA m k
      = match lastIdxWith (stageObjs resp.results ctors camelCase i qd) k with
        | some j => some ((exRefFor (exAt ex i) k).getD
            (h0.length + ((stageSizes resp.results ctors camelCase 0 datas).take i).sum + j))
        | none => none)
    ∧ (keysOf m).Nodup := by
  have hmapsEq : (parse relationships ctors resp ex camelCase h0).1
      = (materializeAll resp.results ctors ex camelCase datas 0 h0).1 := by
    simp only [parse, hd]
  rw [hmapsEq] at hm
  rw [materializeAll_maps_get? resp.results ctors ex camelCase datas 0 h0 i qd hqd] at hm
  have hmm := Option.some.inj hm
  rw [← hmm]
  constructor
  · intro k
    simp only [mkStageMap]
    rw [mkStageMapAux_getA]
    simp only [Nat.zero_add]
    rcases hl : lastIdxWith (stageObjs resp.results ctors camelCase i qd) k with _ | j
    · simp [hl, getA]
    · simp [hl]
  · simp only [mkStageMap]
    exact mkStageMapAux_nodup _ _ _ _ (by simp [keysOf])

/-- Witness for C3: one stage with rows of ids 1, 2, 1 and an existing
entity supplied for id 1; the map binds id 1 to the existing reference
77 (existing wins over both fresh duplicates) and id 2 to the fresh
entity of row index 1. -/
theorem claim_C3_witness :
    getA [("1", (77 : Nat)), ("2", 1)] "1" = some 77
    ∧ getA [("1", (77 : Nat)), ("2", 1)] "2" = some 1 :=
  have hmain := claim_C3 [] none
    (Response.mk [StageResult.mk "M" (-1) JVal.null []]
      (some [QueryData.mk ["id"]
        (some [[JVal.num 1], [JVal.num 2], [JVal.num 1]]) []]))
    (some [some [("1", 77)]]) false []
    [QueryData.mk ["id"] (some [[JVal.num 1], [JVal.num 2], [JVal.num 1]]) []]
    0
    (QueryData.mk ["id"] (some [[JVal.num 1], [JVal.num 2], [JVal.num 1]]) [])
    [("1", 77), ("2", 1)]
    rfl rfl (by decide)
  ⟨hmain.1 "1", hmain.1 "2"⟩

/-! ### Edge membership and link pass preservation, toward claim C1 -/

theorem mem_fwdList (dst src : JObj Nat) :
    ∀ (es : List (JVal × JVal)) (t sv : JVal) (rT rS : Nat),
      (t, sv) ∈ es → sv.truthy →
      getA dst t.keyStr = some rT → getA src sv.keyStr = some rS →
      rT ∈ fwdList dst src es rS := by
  intro es
  induction es with
  | nil => intro t sv rT rS hmem _ _ _; simp at hmem
  | cons e es ih =>
      intro t sv rT rS hmem htr hdt hst
      obtain ⟨t0, sv0⟩ := e
      rcases List.mem_cons.1 hmem with he | he
      · injection he with ht hsv
        subst ht; subst hsv
        simp only [fwdList]
        rw [if_pos htr]
        simp only [hdt, hst]
        simp
      · simp only [fwdList]
        exact List.mem_append_right _ (ih t sv rT rS he htr hdt hst)

theorem mem_revList (dst src : JObj Nat) :
    ∀ (es : List (JVal × JVal)) (t sv : JVal) (rT rS : Nat),
      (t, sv) ∈ es → sv.truthy →
      getA dst t.keyStr = some rT → getA src sv.keyStr = some rS →
      rS ∈ revList dst src es rT := by
  intro es
  induction es with
  | nil => intro t sv rT rS hmem _ _ _; simp at hmem
  | cons e es ih =>
      intro t sv rT rS hmem htr hdt hst
      obtain ⟨t0, sv0⟩ := e
      rcases List.mem_cons.1 hmem with he | he
      · injection he with ht hsv
        subst ht; subst hsv
        simp only [revList]
        rw [if_pos htr]
        simp only [hdt, hst]
        simp
      · simp only [revList]
        exact List.mem_append_right _ (ih t sv rT rS he htr hdt hst)

/-- Preservation of established relationship arrays through the rest of
the link pass: a step for another stage never touches the properties
(fwd on the source-map entities, rev on the target-map entities) as long
as its own relationship names and entities avoid them, which the
noninterference premise states. -/
theorem linkPassAux_pres (relationships : List String) (camelCase : Bool)
    (maps : List (JObj Nat)) (fwd rev : String) (src dst : JObj Nat)
    (FA RA : Nat → List Nat) :
    ∀ (rs : List StageResult) (qi : Nat) (st : List JVal × Heap),
      (∀ (j' : Nat) (qr' : StageResult), rs.get? j' = some qr' →
        ∀ (s2 d2 : JObj Nat), mapAtI maps qr'.join_index = some s2 →
          maps.get? (qi + j') = some d2 →
          (fwd = relNameAt relationships camelCase (qi + j') →
            ∀ r ∈ src.map Prod.snd, r ∉ s2.map Prod.snd)
          ∧ (fwd = relNameAtI relationships camelCase qr'.join_index →
            ∀ r ∈ src.map Prod.snd, r ∉ d2.map Prod.snd)
          ∧ (rev = relNameAt relationships camelCase (qi + j') →
            ∀ r ∈ dst.map Prod.snd, r ∉ s2.map Prod.snd)
          ∧ (rev = relNameAtI relationships camelCase qr'.join_index →
            ∀ r ∈ dst.map Prod.snd, r ∉ d2.map Prod.snd)) →
      (∀ p ∈ src, getA (getE st.2 p.2) fwd = some (.arr (FA p.2))) →
      (∀ p ∈ dst, getA (getE st.2 p.2) rev = some (.arr (RA p.2))) →
      (∀ p ∈ src, getA (getE (linkPassAux relationships camelCase maps rs qi st).2 p.2) fwd
          = some (.arr (FA p.2)))
      ∧ (∀ p ∈ dst, getA (getE (linkPassAux relationships camelCase maps rs qi st).2 p.2) rev
          = some (.arr (RA p.2))) := by
  intro rs
  induction rs with
  | nil => intro qi st _ hsrc hdst; exact ⟨hsrc, hdst⟩
  | cons qr' rest ih =>
      intro qi st hni hsrc hdst
      simp only [linkPassAux]
      have hstep : ∀ (r : Nat) (k : String),
          ((r ∈ src.map Prod.snd ∧ k = fwd) ∨ (r ∈ dst.map Prod.snd ∧ k = rev)) →
          getA (getE ((linkStage relationships camelCase maps qi qr' st.1 st.2).2) r) k
            = getA (getE st.2 r) k := by
        intro r k hrk
        rcases hs2 : mapAtI maps qr'.join_index with _ | s2
        · rw [linkStage_heap_missing _ _ _ _ _ _ _ (Or.inl hs2)]
        · rcases hd2 : maps.get? qi with _ | d2
          · rw [linkStage_heap_missing _ _ _ _ _ _ _ (Or.inr hd2)]
          · have hni0 := hni 0 qr' rfl s2 d2 hs2 (by rw [Nat.add_zero]; exact hd2)
            refine linkStage_frame _ _ _ _ _ _ _ _ _ hs2 hd2 r k ?_ ?_
            · intro hk
              rcases hrk with ⟨hr, hkf⟩ | ⟨hr, hkr⟩
              · exact hni0.1 (by rw [← hkf, hk, Nat.add_zero]) r hr
              · exact hni0.2.2.1 (by rw [← hkr, hk, Nat.add_zero]) r hr
            · intro hk
              rcases hrk with ⟨hr, hkf⟩ | ⟨hr, hkr⟩
              · exact hni0.2.1 (by rw [← hkf, hk]) r hr
              · exact hni0.2.2.2 (by rw [← hkr, hk]) r hr
      refine ih (qi + 1) _ ?_ ?_ ?_
      · intro j' qr2 hget s2 d2 hs2 hd2
        have := hni (j' + 1) qr2 (by simpa using hget) s2 d2 hs2
          (by rw [show qi + (j' + 1) = qi + 1 + j' by omega]; exact hd2)
        rw [show qi + (j' + 1) = qi + 1 + j' by omega] at this
        exact this
      · intro p hp
        rw [hstep p.2 fwd (Or.inl ⟨List.mem_map_of_mem Prod.snd hp, rfl⟩)]
        exact hsrc p hp
      · intro p hp
        rw [hstep p.2 rev (Or.inr ⟨List.mem_map_of_mem Prod.snd hp, rfl⟩)]
        exact hdst p hp

/-- Counterexample to claim C1: the edge loop skips any edge whose
sourceId is falsy, and the number 0 is falsy in JS even though it is
non-null and can resolve in the source stage's map (an entity with id 0
is legal; the client's own groupObjectsByID admits id 0 explicitly).
In this two-stage response, edge (1, 0) has the non-null sourceId 0 and
both ids resolve in their stage maps, yet after the build both
relationship arrays are still empty, so the claimed entries are absent. -/
theorem claim_C1_counterexample :
    ((parse ["as", "bs"] none
        (Response.mk
          [StageResult.mk "A" (-1) JVal.null [],
           StageResult.mk "B" 0 JVal.null [(JVal.num 1, JVal.num 0)]]
          (some
            [QueryData.mk ["id"] (some [[JVal.num 0]]) [],
             QueryData.mk ["id"] (some [[JVal.num 1]]) []]))
        none false []).1
      = [[("0", 0)], [("1", 1)]])
    ∧ JVal.num 0 ≠ JVal.null
    ∧ getA (getE ((parse ["as", "bs"] none
        (Response.mk
          [StageResult.mk "A" (-1) JVal.null [],
           StageResult.mk "B" 0 JVal.null [(JVal.num 1, JVal.num 0)]]
          (some
            [QueryData.mk ["id"] (some [[JVal.num 0]]) [],
             QueryData.mk ["id"] (some [[JVal.num 1]]) []]))
        none false []).2.2) 0) "bs" = some (JVal.arr [])
    ∧ getA (getE ((parse ["as", "bs"] none
        (Response.mk
          [StageResult.mk "A" (-1) JVal.null [],
           StageResult.mk "B" 0 JVal.null [(JVal.num 1, JVal.num 0)]]
          (some
            [QueryData.mk ["id"] (some [[JVal.num 0]]) [],
             QueryData.mk ["id"] (some [[JVal.num 1]]) []]))
        none false []).2.2) 1) "as" = some (JVal.arr []) := by
  refine ⟨by decide, by decide, by decide, by decide⟩

/-- Claim C1 as amended: for a stage i whose join source s =
results[i].join_index is an earlier stage, with no existing-entity
substitution and with the (transformed) relationship names pairwise
distinct across stages, after the build the forward array of every
source-stage entity and the reverse array of every target-stage entity
contain exactly one entry per join edge whose sourceId is truthy (not
merely non-null: the falsy id 0 is skipped) and whose two ids resolve,
in edge-list order; in particular for every such edge the source
entity's forward array contains the target entity and the target
entity's reverse array contains the source entity. -/
theorem claim_C1_amended (relationships : List String)
    (ctors : Option (List (Option (Props → Props)))) (resp : Response)
    (camelCase : Bool) (h0 : Heap) (datas : List QueryData) (i s : Nat)
    (qr : StageResult) (src dst : JObj Nat)
    (hd : resp.data = some datas)
    (hqr : resp.results.get? i = some qr)
    (hs : qr.join_index = (s : Int))
    (hsi : s < i)
    (hdist : ∀ j1 j2, j1 < datas.length → j2 < datas.length → j1 ≠ j2 →
      relNameAt relationships camelCase j1 ≠ relNameAt relationships camelCase j2)
    (hsrc : (parse relationships ctors resp none camelCase h0).1.get? s = some src)
    (hdst : (parse relationships ctors resp none camelCase h0).1.get? i = some dst) :
    (∀ p ∈ src,
      getA (getE (parse relationships ctors resp none camelCase h0).2.2 p.2)
        (relNameAt relationships camelCase i)
        = some (.arr (fwdList dst src qr.objects p.2)))
    ∧ (∀ p ∈ dst,
      getA (getE (parse relationships ctors resp none camelCase h0).2.2 p.2)
        (relNameAt relationships camelCase s)
        = some (.arr (revList dst src qr.objects p.2)))
    ∧ (∀ e ∈ qr.objects, e.2.truthy →
        ∀ rT rS, getA dst e.1.keyStr = some rT → getA src e.2.keyStr = some rS →
          rT ∈ fwdList dst src qr.objects rS ∧ rS ∈ revList dst src qr.objects rT) := by
  have hmapsEq : (parse relationships ctors resp none camelCase h0).1
      = (materializeAll resp.results ctors none camelCase datas 0 h0).1 := by
    simp only [parse, hd]
  rw [hmapsEq] at hsrc hdst
  have hslt : s < datas.length := by
    obtain ⟨hl, _⟩ := List.get?_eq_some.1 hsrc
    rw [materializeAll_len_maps] at hl
    exact hl
  have hilt : i < datas.length := by
    obtain ⟨hl, _⟩ := List.get?_eq_some.1 hdst
    rw [materializeAll_len_maps] at hl
    exact hl
  obtain ⟨qds, hqds⟩ : ∃ qd, datas.get? s = some qd := by
    rcases hq : datas.get? s with _ | qd
    · have := List.get?_eq_none.1 hq
      omega
    · exact ⟨qd, rfl⟩
  obtain ⟨qdi, hqdi⟩ : ∃ qd, datas.get? i = some qd := by
    rcases hq : datas.get? i with _ | qd
    · have := List.get?_eq_none.1 hq
      omega
    · exact ⟨qd, rfl⟩
  have hbsrc := matAll_ref_valid resp.results ctors camelCase datas h0 s src qds hqds hsrc
  have hbdst := matAll_ref_valid resp.results ctors camelCase datas h0 i dst qdi hqdi hdst
  have hfr : relNameAt relationships camelCase i ≠ relNameAt relationships camelCase s :=
    hdist i s hilt hslt (by omega)
  have hmap_s : mapAtI (materializeAll resp.results ctors none camelCase datas 0 h0).1
      qr.join_index = some src := by
    rw [hs]
    simp only [mapAtI]
    rw [if_pos (by omega), Int.toNat_ofNat]
    exact hsrc
  have hrevEq : relNameAtI relationships camelCase qr.join_index
      = relNameAt relationships camelCase s := by
    rw [hs]
    simp only [relNameAtI]
    rw [if_pos (by omega), Int.toNat_ofNat]
  have hfinal : (parse relationships ctors resp none camelCase h0).2.2
      = (linkPassAux relationships camelCase
          (materializeAll resp.results ctors none camelCase datas 0 h0).1
          (resp.results.drop (i + 1)) (i + 1)
          (linkStage relationships camelCase
            (materializeAll resp.results ctors none camelCase datas 0 h0).1 i qr
            ((linkPassAux relationships camelCase
              (materializeAll resp.results ctors none camelCase datas 0 h0).1
              (resp.results.take i) 0
              ((materializeAll resp.results ctors none camelCase datas 0 h0).2.1,
               (materializeAll resp.results ctors none camelCase datas 0 h0).2.2)).1)
            ((linkPassAux relationships camelCase
              (materializeAll resp.results ctors none camelCase datas 0 h0).1
              (resp.results.take i) 0
              ((materializeAll resp.results ctors none camelCase datas 0 h0).2.1,
               (materializeAll resp.results ctors none camelCase datas 0 h0).2.2)).2))).2 := by
    simp only [parse, hd]
    rw [linkPassAux_split relationships camelCase _ resp.results i qr _ hqr]
  have hmidlen : ((linkPassAux relationships camelCase
      (materializeAll resp.results ctors none camelCase datas 0 h0).1
      (resp.results.take i) 0
      ((materializeAll resp.results ctors none camelCase datas 0 h0).2.1,
       (materializeAll resp.results ctors none camelCase datas 0 h0).2.2)).2).length
      = ((materializeAll resp.results ctors none camelCase datas 0 h0).2.2).length :=
    length_linkPassAux_heap _ _ _ _ _ _
  have hstage : (linkStage relationships camelCase
      (materializeAll resp.results ctors none camelCase datas 0 h0).1 i qr
      ((linkPassAux relationships camelCase
        (materializeAll resp.results ctors none camelCase datas 0 h0).1
        (resp.results.take i) 0
        ((materializeAll resp.results ctors none camelCase datas 0 h0).2.1,
         (materializeAll resp.results ctors none camelCase datas 0 h0).2.2)).1)
      ((linkPassAux relationships camelCase
        (materializeAll resp.results ctors none camelCase datas 0 h0).1
        (resp.results.take i) 0
        ((materializeAll resp.results ctors none camelCase datas 0 h0).2.1,
         (materializeAll resp.results ctors none camelCase datas 0 h0).2.2)).2)).2
      = applyEdges dst src (relNameAt relationships camelCase i)
          (relNameAt relationships camelCase s) qr.objects
          (initRel (relNameAt relationships camelCase s) dst
            (initRel (relNameAt relationships camelCase i) src
              ((linkPassAux relationships camelCase
                (materializeAll resp.results ctors none camelCase datas 0 h0).1
                (resp.results.take i) 0
                ((materializeAll resp.results ctors none camelCase datas 0 h0).2.1,
                 (materializeAll resp.results ctors none camelCase datas 0 h0).2.2)).2))) := by
    simp only [linkStage, hmap_s, hdst, hrevEq]
  have hinitSrc : ∀ p ∈ src,
      getA (getE (initRel (relNameAt relationships camelCase i) src
        ((linkPassAux relationships camelCase
          (materializeAll resp.results ctors none camelCase datas 0 h0).1
          (resp.results.take i) 0
          ((materializeAll resp.results ctors none camelCase datas 0 h0).2.1,
           (materializeAll resp.results ctors none camelCase datas 0 h0).2.2)).2)) p.2)
        (relNameAt relationships camelCase i) = some (.arr []) := by
    refine initRel_post _ src _ ?_
    intro q hq
    rw [hmidlen]
    exact hbsrc q hq
  have hA : ∀ p ∈ src,
      p.2 < ((initRel (relNameAt relationships camelCase s) dst
        (initRel (relNameAt relationships camelCase i) src
          ((linkPassAux relationships camelCase
            (materializeAll resp.results ctors none camelCase datas 0 h0).1
            (resp.results.take i) 0
            ((materializeAll resp.results ctors none camelCase datas 0 h0).2.1,
             (materializeAll resp.results ctors none camelCase datas 0 h0).2.2)).2))).length)
      ∧ getA (getE (initRel (relNameAt relationships camelCase s) dst
          (initRel (relNameAt relationships camelCase i) src
            ((linkPassAux relationships camelCase
              (materializeAll resp.results ctors none camelCase datas 0 h0).1
              (resp.results.take i) 0
              ((materializeAll resp.results ctors none camelCase datas 0 h0).2.1,
               (materializeAll resp.results ctors none camelCase datas 0 h0).2.2)).2))) p.2)
          (relNameAt relationships camelCase i)
        = some (.arr ((fun _ => ([] : List Nat)) p.2)) := by
    intro p hp
    constructor
    · rw [length_initRel, length_initRel, hmidlen]
      exact hbsrc p hp
    · rw [initRel_frame _ _ _ _ _ (Or.inl hfr)]
      exact hinitSrc p hp
  have hB : ∀ p ∈ dst,
      p.2 < ((initRel (relNameAt relationships camelCase s) dst
        (initRel (relNameAt relationships camelCase i) src
          ((linkPassAux relationships camelCase
            (materializeAll resp.results ctors none camelCase datas 0 h0).1
            (resp.results.take i) 0
            ((materializeAll resp.results ctors none camelCase datas 0 h0).2.1,
             (materializeAll resp.results ctors none camelCase datas 0 h0).2.2)).2))).length)
      ∧ getA (getE (initRel (relNameAt relationships camelCase s) dst
          (initRel (relNameAt relationships camelCase i) src
            ((linkPassAux relationships camelCase
              (materializeAll resp.results ctors none camelCase datas 0 h0).1
              (resp.results.take i) 0
              ((materializeAll resp.results ctors none camelCase datas 0 h0).2.1,
               (materializeAll resp.results ctors none camelCase datas 0 h0).2.2)).2))) p.2)
          (relNameAt relationships camelCase s)
        = some (.arr ((fun _ => ([] : List Nat)) p.2)) := by
    intro p hp
    constructor
    · rw [length_initRel, length_initRel, hmidlen]
      exact hbdst p hp
    · refine initRel_post _ dst _ ?_ p hp
      intro q hq
      rw [length_initRel, hmidlen]
      exact hbdst q hq
  have hmainAE := applyEdges_main dst src (relNameAt relationships camelCase i)
    (relNameAt relationships camelCase s) hfr qr.objects
    (initRel (relNameAt relationships camelCase s) dst
      (initRel (relNameAt relationships camelCase i) src
        ((linkPassAux relationships camelCase
          (materializeAll resp.results ctors none camelCase datas 0 h0).1
          (resp.results.take i) 0
          ((materializeAll resp.results ctors none camelCase datas 0 h0).2.1,
           (materializeAll resp.results ctors none camelCase datas 0 h0).2.2)).2)))
    (fun _ => []) (fun _ => []) hA hB
  have hNI : ∀ (j' : Nat) (qr2 : StageResult),
      (resp.results.drop (i + 1)).get? j' = some qr2 →
      ∀ (s2 d2 : JObj Nat),
        mapAtI (materializeAll resp.results ctors none camelCase datas 0 h0).1
          qr2.join_index = some s2 →
        (materializeAll resp.results ctors none camelCase datas 0 h0).1.get? (i + 1 + j')
          = some d2 →
        (relNameAt relationships camelCase i = relNameAt relationships camelCase (i + 1 + j') →
          ∀ r ∈ src.map Prod.snd, r ∉ s2.map Prod.snd)
        ∧ (relNameAt relationships camelCase i
            = relNameAtI relationships camelCase qr2.join_index →
          ∀ r ∈ src.map Prod.snd, r ∉ d2.map Prod.snd)
        ∧ (relNameAt relationships camelCase s = relNameAt relationships camelCase (i + 1 + j') →
          ∀ r ∈ dst.map Prod.snd, r ∉ s2.map Prod.snd)
        ∧ (relNameAt relationships camelCase s
            = relNameAtI relationships camelCase qr2.join_index →
          ∀ r ∈ dst.map Prod.snd, r ∉ d2.map Prod.snd) := by
    intro j' qr2 hget s2 d2 hs2 hd2
    have hqi'lt : i + 1 + j' < datas.length := by
      obtain ⟨hl, _⟩ := List.get?_eq_some.1 hd2
      rw [materializeAll_len_maps] at hl
      exact hl
    obtain ⟨qd', hqd'⟩ : ∃ qd, datas.get? (i + 1 + j') = some qd := by
      rcases hq : datas.get? (i + 1 + j') with _ | qd
      · have := List.get?_eq_none.1 hq
        omega
      · exact ⟨qd, rfl⟩
    have hdisj_s : ∀ r ∈ src.map Prod.snd, r ∉ d2.map Prod.snd := by
      intro r hr hrd
      obtain ⟨p1, hp1, hp1e⟩ := List.mem_map.1 hr
      obtain ⟨p2, hp2, hp2e⟩ := List.mem_map.1 hrd
      exact matAll_ref_disjoint resp.results ctors camelCase datas h0 s (i + 1 + j')
        src d2 qds qd' hqds hqd' hsrc hd2 (by omega) p1 hp1 p2 hp2
        (by rw [hp1e, hp2e])
    have hdisj_i : ∀ r ∈ dst.map Prod.snd, r ∉ d2.map Prod.snd := by
      intro r hr hrd
      obtain ⟨p1, hp1, hp1e⟩ := List.mem_map.1 hr
      obtain ⟨p2, hp2, hp2e⟩ := List.mem_map.1 hrd
      exact matAll_ref_disjoint resp.results ctors camelCase datas h0 i (i + 1 + j')
        dst d2 qdi qd' hqdi hqd' hdst hd2 (by omega) p1 hp1 p2 hp2
        (by rw [hp1e, hp2e])
    refine ⟨?_, fun _ => hdisj_s, ?_, fun _ => hdisj_i⟩
    · intro he r hr
      exact absurd he (hdist i (i + 1 + j') hilt hqi'lt (by omega))
    · intro he r hr
      exact absurd he (hdist s (i + 1 + j') hslt hqi'lt (by omega))
  have hpres := linkPassAux_pres relationships camelCase
    (materializeAll resp.results ctors none camelCase datas 0 h0).1
    (relNameAt relationships camelCase i) (relNameAt relationships camelCase s)
    src dst (fun r => fwdList dst src qr.objects r) (fun r => revList dst src qr.objects r)
    (resp.results.drop (i + 1)) (i + 1)
    (linkStage relationships camelCase
      (materializeAll resp.results ctors none camelCase datas 0 h0).1 i qr
      ((linkPassAux relationships camelCase
        (materializeAll resp.results ctors none camelCase datas 0 h0).1
        (resp.results.take i) 0
        ((materializeAll resp.results ctors none camelCase datas 0 h0).2.1,
         (materializeAll resp.results ctors none camelCase datas 0 h0).2.2)).1)
      ((linkPassAux relationships camelCase
        (materializeAll resp.results ctors none camelCase datas 0 h0).1
        (resp.results.take i) 0
        ((materializeAll resp.results ctors none camelCase datas 0 h0).2.1,
         (materializeAll resp.results ctors none camelCase datas 0 h0).2.2)).2))
    hNI
    (by
      intro p hp
      rw [hstage]
      have := hmainAE.1 p hp
      simpa using this)
    (by
      intro p hp
      rw [hstage]
      have := hmainAE.2 p hp
      simpa using this)
  refine ⟨?_, ?_, ?_⟩
  · intro p hp
    rw [hfinal]
    exact hpres.1 p hp
  · intro p hp
    rw [hfinal]
    exact hpres.2 p hp
  · intro e he htr rT rS hdt hst
    have hmm : (e.1, e.2) ∈ qr.objects := by
      rw [Prod.mk.eta]
      exact he
    exact ⟨mem_fwdList dst src qr.objects e.1 e.2 rT rS hmm htr hdt hst,
      mem_revList dst src qr.objects e.1 e.2 rT rS hmm htr hdt hst⟩

/-- Witness for the amended C1: in the two-stage scenario the
experiment entity's forward array holds exactly the two reaction
entities, in edge order. -/
theorem claim_C1_witness :
    getA (getE (parse ["experiments", "reactions"] none
        (Response.mk
          [StageResult.mk "Experiment" (-1) JVal.null [],
           StageResult.mk "Reaction" 0 JVal.null
             [(JVal.num 23063, JVal.num 403), (JVal.num 23064, JVal.num 403)]]
          (some
            [QueryData.mk ["id"] (some [[JVal.num 403]]) [],
             QueryData.mk ["id"] (some [[JVal.num 23063], [JVal.num 23064]]) []]))
        none false []).2.2 0)
      (relNameAt ["experiments", "reactions"] false 1) = some (JVal.arr [1, 2]) :=
  (claim_C1_amended ["experiments", "reactions"] none
    (Response.mk
      [StageResult.mk "Experiment" (-1) JVal.null [],
       StageResult.mk "Reaction" 0 JVal.null
         [(JVal.num 23063, JVal.num 403), (JVal.num 23064, JVal.num 403)]]
      (some
        [QueryData.mk ["id"] (some [[JVal.num 403]]) [],
         QueryData.mk ["id"] (some [[JVal.num 23063], [JVal.num 23064]]) []]))
    false []
    [QueryData.mk ["id"] (some [[JVal.num 403]]) [],
     QueryData.mk ["id"] (some [[JVal.num 23063], [JVal.num 23064]]) []]
    1 0
    (StageResult.mk "Reaction" 0 JVal.null
      [(JVal.num 23063, JVal.num 403), (JVal.num 23064, JVal.num 403)])
    [("403", 0)] [("23063", 1), ("23064", 2)]
    rfl rfl rfl (by omega)
    (by
      intro j1 j2 h1 h2 hne
      have h1b : j1 < 2 := by simpa using h1
      have h2b : j2 < 2 := by simpa using h2
      interval_cases j1 <;> interval_cases j2 <;> first
        | exact absurd rfl hne
        | decide)
    (by decide) (by decide)).1
    ("403", 0) (by decide)
